import Mathlib

/-!
# fail2ban-exporter: reconciliation cycle and geo cache

A shallow embedding of `main.go` and theorems about it.

Conventions of the embedding:

* a Go `string` is a `List Char` (`Str`); command output is taken to be valid
  UTF-8 text, so every Go rune is a `Char`;
* `time.Time` is the clock reading in nanoseconds, a `Nat`;
* a Go `map[string]V` that is only looked up and assigned is a function
  `Str → Option V`; `previousBanned`/`currentBanned` (`map[string]bool`, only
  ever assigned `true`, and ranged over) is the list of its keys;
* a float64 coordinate is represented by its `%.4f` rendering, the only way
  the program uses it; gauge values are `Nat` (the program sets 0, 1 and
  counts);
* the external collaborators (commands, HTTP lookup, clock) are inputs: each
  call gets its own result, so nothing is assumed about them;
* `for key := range previousBanned` visits the keys in the order of the list;
  Go leaves the order open, and so do the theorems: those about one run hold
  for every list, and `Reachable` lets the keys be reordered between runs.
-/

namespace Fail2banExporter

/-- Go `string`, as the list of its runes. -/
abbrev Str := List Char

/-! ## Library functions used by the program -/

/-- Go `unicode.IsSpace`: the Latin-1 cases and the `White_Space` table. -/
def isSpace (c : Char) : Bool :=
  let n := c.toNat
  (9 ≤ n && n ≤ 13) || n == 32 || n == 0x85 || n == 0xA0 || n == 0x1680 ||
  (0x2000 ≤ n && n ≤ 0x200a) || n == 0x2028 || n == 0x2029 || n == 0x202f ||
  n == 0x205f || n == 0x3000

/-- Go `strings.TrimSpace`: leading and trailing white space removed. -/
def TrimSpace (s : Str) : Str :=
  ((s.dropWhile isSpace).reverse.dropWhile isSpace).reverse

/-- Puts a rune in front of the first piece of a split. -/
def consHead (c : Char) : List Str → List Str
  | [] => [[c]]
  | p :: ps => (c :: p) :: ps

/-- Splits at every rune satisfying `p`; the separators are dropped and empty
pieces are kept, so the result has one piece more than there are separators. -/
def splitWhere (p : Char → Bool) : Str → List Str
  | [] => [[]]
  | c :: cs => if p c then [] :: splitWhere p cs else consHead c (splitWhere p cs)

/-- Go `strings.Split(s, sep)` for a separator of one rune (the program uses
`":"` and `","`). -/
def Split (s : Str) (sep : Char) : List Str :=
  splitWhere (fun c => c == sep) s

/-- Go `strings.Fields`: the maximal runs of non-space runes. -/
def Fields (s : Str) : List Str :=
  (splitWhere isSpace s).filter (fun f => !f.isEmpty)

/-- Go `strings.SplitN(s, sep, 2)` for a separator of one rune: at most two
pieces, cut at the first separator. -/
def SplitN2 (s : Str) (sep : Char) : List Str :=
  match s.span (fun c => c != sep) with
  | (a, []) => [a]
  | (a, _ :: b) => [a, b]

/-- Go `strings.Contains`. -/
def Contains : Str → Str → Bool
  | [], sub => sub.isEmpty
  | c :: cs, sub => sub.isPrefixOf (c :: cs) || Contains cs sub

/-- Number of bytes of the UTF-8 encoding, Go `len(s)`. -/
def byteLen (s : Str) : Nat := (s.map Char.utf8Size).sum

/-- The `dropCR` of `bufio.ScanLines`: one trailing carriage return is removed. -/
def dropCR (s : Str) : Str :=
  if s.getLast? = some '\r' then s.dropLast else s

/-- The default `bufio.MaxScanTokenSize` is 64 KiB; a line fits the scanner's
buffer when it is shorter than that. -/
def maxLine : Nat := 65535

/-- The tokens of a `bufio.Scanner` with the default `ScanLines` split function
over the whole text: the text is cut at every `'\n'`, a final line without
newline counts when it is not empty, a line that does not fit the buffer stops
the scan (`Scan` returns false with `ErrTooLong`, which the program does not
look at), and each token loses one trailing `'\r'`. -/
def scanLines (s : Str) : List Str :=
  let pieces := splitWhere (fun c => c == '\n') s
  let lines := if pieces.getLast? = some [] then pieces.dropLast else pieces
  (lines.takeWhile (fun l => decide (byteLen l ≤ maxLine))).map dropCR

/-! ## The host pattern -/

open RegularExpression in
/-- `\d`: one ASCII digit (Go's `\d` is `[0-9]`). -/
def reDigit : RegularExpression Char :=
  char '0' + char '1' + char '2' + char '3' + char '4' +
  char '5' + char '6' + char '7' + char '8' + char '9'

/-- `\d{1,3}`. -/
def reDigits13 : RegularExpression Char :=
  reDigit * (1 + reDigit * (1 + reDigit))

/-- `\.\d{1,3}`. -/
def reDotGroup : RegularExpression Char :=
  RegularExpression.char '.' * reDigits13

/-- The body of `ipRegex = ^\d{1,3}(\.\d{1,3}){3}$`; the anchors make
`MatchString` a match of the whole text. -/
def ipRegex : RegularExpression Char :=
  reDigits13 * (reDotGroup * (reDotGroup * reDotGroup))

/-- `ipRegex.MatchString(s)`. -/
def MatchString (s : Str) : Bool := ipRegex.rmatch s

/-! ## Commands -/

/-- What `executeCommand` returns: the captured standard output and whether
`err` is non-nil. -/
structure CmdResult where
  out : Str
  err : Bool
  deriving DecidableEq

/-- The jail names on a `Jail list:` line: the text between the first and the
second colon, cut at commas, each name trimmed, empty names dropped. -/
def jailsOfLine (line : Str) : List Str :=
  match Split line ':' with
  | _ :: p1 :: _ =>
    ((Split (TrimSpace p1) ',').map TrimSpace).filter (fun j => !j.isEmpty)
  | _ => []

/-- The scanner loop of `getJailList`: the first line that contains
`Jail list:` decides, later lines are not read. -/
def jailScan : List Str → List Str
  | [] => []
  | line :: rest =>
    if Contains line "Jail list:".toList then jailsOfLine line else jailScan rest

/-- `getJailList`, given the result of `fail2ban-client status`; `none` is the
error return. -/
def getJailList (r : CmdResult) : Option (List Str) :=
  if r.err then none else some (jailScan (scanLines r.out))

/-- The hosts of one line in `getBannedIPsForJail`. -/
def hostsOfLine (line : Str) : List Str :=
  let line := TrimSpace line
  if line.isEmpty then [] else (Fields line).filter MatchString

/-- `getBannedIPsForJail`, given the result of
`fail2ban-client get <jail> banip`; `none` is the error return. -/
def getBannedIPsForJail (r : CmdResult) : Option (List Str) :=
  if r.err then none else some ((scanLines r.out).flatMap hostsOfLine)

/-! ## State -/

/-- One entry of `geoCache`. -/
structure geoCacheEntry where
  Lat : Str
  Lon : Str
  Expiry : Nat
  deriving DecidableEq

/-- The label values of one series of `ipBannedGauge`, in the order of its
declaration: `ip`, `jail`, `lat`, `lon`. -/
structure Labels where
  ip : Str
  jail : Str
  lat : Str
  lon : Str
  deriving DecidableEq

/-- The observable effects of a run, in program order. -/
inductive Event where
  /-- `ipBannedGauge.WithLabelValues(ip, jail, lat, lon).Set(v)` -/
  | setBanned (l : Labels) (v : Nat)
  /-- `apiClient.Get` for the host -/
  | httpGet (ip : Str)
  deriving DecidableEq

/-- The package-level variables the cycle reads and writes. A series of
`ipBannedGauge` that was never touched is `none`. -/
structure State where
  previousBanned : List Str
  geoCache : Str → Option geoCacheEntry
  ipBannedGauge : Labels → Option Nat
  totalBannedIPsGauge : Nat

/-- Assignment `m[k] = v` on a map. -/
def mapSet {κ ν : Type} [DecidableEq κ] (m : κ → Option ν) (k : κ) (v : ν) :
    κ → Option ν :=
  fun k2 => if k2 = k then some v else m k2

/-- Assignment `m[k] = true` on a `map[string]bool` kept as its key list. -/
def insertKey (m : List Str) (k : Str) : List Str :=
  if k ∈ m then m else m ++ [k]

/-- The snapshot key `fmt.Sprintf("%s:%s", jail, ip)`. -/
def banKey (jail ip : Str) : Str := jail ++ ':' :: ip

/-- The snapshot key that a series belongs to. -/
def Labels.key (l : Labels) : Str := banKey l.jail l.ip

/-! ## Geo cache -/

/-- What the HTTP lookup answers when it is made. -/
inductive GeoResponse where
  /-- `apiClient.Get` returned an error (timeout included) -/
  | transportError
  /-- the body did not decode -/
  | undecodable
  /-- decoded coordinates, in their `%.4f` rendering -/
  | ok (lat lon : Str)
  deriving DecidableEq

/-- The surroundings of one call of `getGeoData`: the clock when the cache is
checked, the answer of the lookup service, the clock when the entry is stored. -/
structure GeoCall where
  now : Nat
  resp : GeoResponse
  stored : Nat

/-- `24 * time.Hour`, in nanoseconds. -/
def ttl : Nat := 24 * 3600 * 1000000000

/-- What `getGeoData` returns and does. -/
structure GeoOut where
  lat : Str
  lon : Str
  geoCache : Str → Option geoCacheEntry
  /-- whether `apiClient.Get` was called -/
  called : Bool

/-- The cache test of `getGeoData`:
`entry, exists := geoCache[ip]; exists && time.Now().Before(entry.Expiry)`. -/
def freshEntry (geoCache : Str → Option geoCacheEntry) (ip : Str) (now : Nat) :
    Option geoCacheEntry :=
  match geoCache ip with
  | some entry => if now < entry.Expiry then some entry else none
  | none => none

/-- `getGeoData`. -/
def getGeoData (geoCache : Str → Option geoCacheEntry) (ip : Str) (w : GeoCall) :
    GeoOut :=
  match freshEntry geoCache ip w.now with
  | some entry => ⟨entry.Lat, entry.Lon, geoCache, false⟩
  | none =>
    match w.resp with
    | .ok latStr lonStr =>
      ⟨latStr, lonStr, mapSet geoCache ip ⟨latStr, lonStr, w.stored + ttl⟩, true⟩
    | _ => ⟨[], [], geoCache, true⟩

/-! ## The cycle -/

/-- The collaborators of one cycle. `banip i` is the result of the ban query
for the jail at position `i` of the jail list, `geo i k` the surroundings of
the `getGeoData` call for the host at position `k` of that jail's list. -/
structure World where
  status : CmdResult
  banip : Nat → CmdResult
  geo : Nat → Nat → GeoCall

/-- The variables the loops of a cycle change. -/
structure Cycle where
  currentBanned : List Str
  totalBanned : Nat
  geoCache : Str → Option geoCacheEntry
  ipBannedGauge : Labels → Option Nat
  trace : List Event

/-- The body of `for _, ip := range bannedIPs`. -/
def ipStep (previousBanned : List Str) (jail ip : Str) (w : GeoCall) (c : Cycle) :
    Cycle :=
  let key := banKey jail ip
  let g := getGeoData c.geoCache ip w
  let c1 : Cycle :=
    { c with
      currentBanned := insertKey c.currentBanned key
      geoCache := g.geoCache
      trace := c.trace ++ (if g.called then [Event.httpGet ip] else []) }
  if key ∈ previousBanned then c1
  else
    { c1 with
      ipBannedGauge := mapSet c1.ipBannedGauge ⟨ip, jail, g.lat, g.lon⟩ 1
      trace := c1.trace ++ [Event.setBanned ⟨ip, jail, g.lat, g.lon⟩ 1] }

/-- The loop `for _, ip := range bannedIPs`. -/
def ipLoop (previousBanned : List Str) (jail : Str) :
    List Str → (Nat → GeoCall) → Cycle → Cycle
  | [], _, c => c
  | ip :: rest, geo, c =>
    ipLoop previousBanned jail rest (fun k => geo (k + 1))
      (ipStep previousBanned jail ip (geo 0) c)

/-- The body of `for _, jail := range jails`. -/
def jailStep (previousBanned : List Str) (jail : Str) (r : CmdResult)
    (geo : Nat → GeoCall) (c : Cycle) : Cycle :=
  match getBannedIPsForJail r with
  | none => c
  | some bannedIPs =>
    let c1 := ipLoop previousBanned jail bannedIPs geo c
    { c1 with totalBanned := c1.totalBanned + bannedIPs.length }

/-- The loop `for _, jail := range jails`. -/
def jailLoop (previousBanned : List Str) :
    List Str → (Nat → CmdResult) → (Nat → Nat → GeoCall) → Cycle → Cycle
  | [], _, _, c => c
  | jail :: rest, banip, geo, c =>
    jailLoop previousBanned rest (fun i => banip (i + 1)) (fun i => geo (i + 1))
      (jailStep previousBanned jail (banip 0) (geo 0) c)

/-- The coordinates the release loop reads from the cache: the entry when
there is one, whatever its expiry. -/
def cachedCoords (geoCache : Str → Option geoCacheEntry) (ip : Str) : Str × Str :=
  match geoCache ip with
  | some entry => (entry.Lat, entry.Lon)
  | none => ([], [])

/-- The loop `for key := range previousBanned`, over the keys in the order the
map yields them. `none` is the run-time panic of `parts[1]` on a key without
colon. -/
def releaseLoop (currentBanned : List Str) (geoCache : Str → Option geoCacheEntry) :
    List Str → (Labels → Option Nat) × List Event →
      Option ((Labels → Option Nat) × List Event)
  | [], r => some r
  | key :: rest, r =>
    if key ∈ currentBanned then releaseLoop currentBanned geoCache rest r
    else
      match SplitN2 key ':' with
      | [jail, ip] =>
        let l : Labels :=
          ⟨ip, jail, (cachedCoords geoCache ip).1, (cachedCoords geoCache ip).2⟩
        releaseLoop currentBanned geoCache rest
          (mapSet r.1 l 0, r.2 ++ [Event.setBanned l 0])
      | _ => none

/-- The state after a run and what the run did. -/
structure Outcome where
  state : State
  trace : List Event

/-- `collectFail2BanMetrics`, from the jail-list query on (the informational
gauges set before it are not part of the state). `none` is a panic. -/
def collectFail2BanMetrics (w : World) (s : State) : Option Outcome :=
  match getJailList w.status with
  | none => some ⟨s, []⟩
  | some jails =>
    let c := jailLoop s.previousBanned jails w.banip w.geo
      ⟨[], 0, s.geoCache, s.ipBannedGauge, []⟩
    match releaseLoop c.currentBanned c.geoCache s.previousBanned
        (c.ipBannedGauge, c.trace) with
    | none => none
    | some r => some ⟨⟨c.currentBanned, c.geoCache, r.1, c.totalBanned⟩, r.2⟩

/-- The state at program start. -/
def initialState : State := ⟨[], fun _ => none, fun _ => none, 0⟩

/-! ## Notions used to state the properties -/

/-- The keys of the (jail, host) pairs that the ban queries of a cycle return,
in program order: jail by jail, a jail whose query fails contributes nothing. -/
def retrievedKeys : List Str → (Nat → CmdResult) → List Str
  | [], _ => []
  | jail :: rest, banip =>
    (match getBannedIPsForJail (banip 0) with
      | none => []
      | some bannedIPs => bannedIPs.map (banKey jail)) ++
    retrievedKeys rest (fun i => banip (i + 1))

/-- The map `currentBanned` at the end of the jail loop of a run. -/
def currentBannedOf (w : World) (s : State) (jails : List Str) : List Str :=
  (jailLoop s.previousBanned jails w.banip w.geo
    ⟨[], 0, s.geoCache, s.ipBannedGauge, []⟩).currentBanned

/-- A run set some series of key `k` to `v`. -/
def wrote (t : List Event) (v : Nat) (k : Str) : Prop :=
  ∃ l : Labels, Event.setBanned l v ∈ t ∧ l.key = k

/-- The effect of one event on the series of `ipBannedGauge`. -/
def applyEvent (g : Labels → Option Nat) : Event → Labels → Option Nat
  | .setBanned l v => mapSet g l v
  | .httpGet _ => g

/-- The effect of a trace on the series of `ipBannedGauge`. -/
def applyTrace (t : List Event) (g : Labels → Option Nat) : Labels → Option Nat :=
  t.foldl applyEvent g

/-- Every key of the snapshot has the form `jail:host`. -/
def keysWellFormed (m : List Str) : Prop := ∀ k ∈ m, ':' ∈ k

/-- No entry for the host that `getGeoData` would serve at time `now`. -/
def noFreshEntry (geoCache : Str → Option geoCacheEntry) (ip : Str) (now : Nat) :
    Prop :=
  ∀ entry, geoCache ip = some entry → ¬ now < entry.Expiry

/-- The lookup fails: transport error or undecodable payload. -/
def GeoResponse.failed : GeoResponse → Bool
  | .ok _ _ => false
  | _ => true

/-- The states the program can be in: the initial one and what runs of the
cycle make of it, whatever the collaborators answer. -/
inductive Reachable : State → Prop where
  | init : Reachable initialState
  | run (w : World) (s : State) (o : Outcome) :
      Reachable s → collectFail2BanMetrics w s = some o → Reachable o.state
  /-- ranging over a Go map visits its keys in no fixed order -/
  | reorder (s : State) (m : List Str) :
      Reachable s → m.Perm s.previousBanned →
      Reachable ⟨m, s.geoCache, s.ipBannedGauge, s.totalBannedIPsGauge⟩

/-- The hosts that the ban queries of a cycle return, in program order: one
entry for every `getGeoData` call of the jail loop. -/
def retrievedHosts : List Str → (Nat → CmdResult) → List Str
  | [], _ => []
  | _ :: rest, banip =>
    (match getBannedIPsForJail (banip 0) with
      | none => []
      | some bannedIPs => bannedIPs) ++
    retrievedHosts rest (fun i => banip (i + 1))

/-- A ban list printed on one line: every host followed by a blank. -/
def oneLine (hosts : List Str) : Str :=
  hosts.flatMap (fun h => h ++ [' '])

/-- The text whose lines are the given pieces: the pieces joined by newlines. -/
def joinLines : List Str → Str
  | [] => []
  | [a] => a
  | a :: b :: rest => a ++ '\n' :: joinLines (b :: rest)

/-! ## Well-formedness of host tokens -/

/-- One to three ASCII digits: what `\d{1,3}` matches. -/
def digits13 (g : Str) : Bool :=
  decide (1 ≤ g.length) && decide (g.length ≤ 3) && g.all Char.isDigit

/-- The number that a run of ASCII digits denotes. -/
def decimalValue (g : Str) : Nat :=
  g.foldl (fun n c => 10 * n + (c.toNat - 48)) 0

/-- An octet in the words of the specification: decimal digits with a value
in 0..255. -/
def octet255 (g : Str) : Bool :=
  !g.isEmpty && g.all Char.isDigit && decide (decimalValue g ≤ 255)

/-- Four dot-separated groups, each accepted by `ok`. -/
def dottedQuad (ok : Str → Bool) (t : Str) : Bool :=
  match Split t '.' with
  | [a, b, c, d] => ok a && ok b && ok c && ok d
  | _ => false

/-! ## Concrete runs -/

/-- Jail `jailA` reports two hosts; every lookup answers. -/
def scenarioWorld : World :=
  ⟨⟨"Jail list: jailA".toList, false⟩,
    fun _ => ⟨"10.0.0.1 10.0.0.2".toList, false⟩,
    fun _ _ => ⟨0, .ok "1.0000".toList "2.0000".toList, 0⟩⟩

/-- Host 10.0.0.1 is banned under `jailA` and published without coordinates. -/
def scenarioState : State :=
  ⟨["jailA:10.0.0.1".toList], fun _ => none,
    mapSet (fun _ => none) ⟨"10.0.0.1".toList, "jailA".toList, [], []⟩ 1, 1⟩

/-- The commands answer as in `scenarioWorld`, half a minute later; every lookup
fails. -/
def scenarioWorldAgain : World :=
  ⟨⟨"Jail list: jailA".toList, false⟩,
    fun _ => ⟨"10.0.0.1 10.0.0.2".toList, false⟩,
    fun _ _ => ⟨30, .transportError, 30⟩⟩

/-- The status command fails. -/
def statusDownWorld : World :=
  ⟨⟨[], true⟩, fun _ => ⟨"10.0.0.1".toList, false⟩,
    fun _ _ => ⟨0, .ok "1.0000".toList "2.0000".toList, 0⟩⟩

/-- The jail list is obtained, the ban query of `jailA` fails. -/
def jailDownWorld : World :=
  ⟨⟨"Jail list: jailA".toList, false⟩, fun _ => ⟨[], true⟩,
    fun _ _ => ⟨0, .transportError, 0⟩⟩

/-- Jail `sshd` lists the same host twice. -/
def repeatedHostWorld : World :=
  ⟨⟨"Jail list: sshd".toList, false⟩, fun _ => ⟨"1.2.3.4 1.2.3.4".toList, false⟩,
    fun _ _ => ⟨0, .transportError, 0⟩⟩

/-- Jail `sshd` bans 10.0.0.1; the lookup fails. -/
def staleWorld1 : World :=
  ⟨⟨"Jail list: sshd".toList, false⟩, fun _ => ⟨"10.0.0.1".toList, false⟩,
    fun _ _ => ⟨0, .transportError, 0⟩⟩

/-- Jail `sshd` still bans 10.0.0.1; the lookup answers. -/
def staleWorld2 : World :=
  ⟨⟨"Jail list: sshd".toList, false⟩, fun _ => ⟨"10.0.0.1".toList, false⟩,
    fun _ _ => ⟨30, .ok "1.0000".toList "2.0000".toList, 31⟩⟩

/-- Jail `sshd` bans nobody any more. -/
def staleWorld3 : World :=
  ⟨⟨"Jail list: sshd".toList, false⟩, fun _ => ⟨[], false⟩,
    fun _ _ => ⟨60, .transportError, 61⟩⟩

/-- Runs the cycle once for each world of the list, in order. -/
def runCycles : List World → State → Option State
  | [], s => some s
  | w :: ws, s =>
    match collectFail2BanMetrics w s with
    | none => none
    | some o => runCycles ws o.state

/-- Host 10.0.0.1 is banned under `sshd` and published with the coordinates of
a cache entry that expires at clock reading 100. -/
def expiredEntryState : State :=
  ⟨["sshd:10.0.0.1".toList],
    mapSet (fun _ => none) "10.0.0.1".toList
      ⟨"1.0000".toList, "2.0000".toList, 100⟩,
    mapSet (fun _ => none)
      ⟨"10.0.0.1".toList, "sshd".toList, "1.0000".toList, "2.0000".toList⟩ 1, 1⟩

/-- At clock reading 200 jail `sshd` bans 10.0.0.2 only; the lookup fails. -/
def expiredEntryWorld : World :=
  ⟨⟨"Jail list: sshd".toList, false⟩, fun _ => ⟨"10.0.0.2".toList, false⟩,
    fun _ _ => ⟨200, .transportError, 200⟩⟩

/-- The status command answers, without a `Jail list:` line. -/
def noJailLineWorld : World :=
  ⟨⟨"Status\n|- Number of jail:\t0\n".toList, false⟩,
    fun _ => ⟨"10.0.0.9".toList, false⟩,
    fun _ _ => ⟨0, .ok "1.0000".toList "2.0000".toList, 0⟩⟩

/-- The state after one run in `scenarioWorld` from program start. -/
def afterScenario : State :=
  (runCycles [scenarioWorld] initialState).getD initialState

/-- Jail `sshd` bans 10.0.0.1 as before; the lookup fails again. -/
def staleWorldAgain : World :=
  ⟨⟨"Jail list: sshd".toList, false⟩, fun _ => ⟨"10.0.0.1".toList, false⟩,
    fun _ _ => ⟨30, .undecodable, 31⟩⟩

/-- The state after one run in `staleWorld1` from program start: 10.0.0.1 is
banned under `sshd`, nothing is cached. -/
def afterStale1 : State :=
  (runCycles [staleWorld1] initialState).getD initialState

/-- One line of 8000 hosts: 72000 bytes. -/
def longBanOutput : Str :=
  oneLine (List.replicate 8000 "10.0.0.1".toList)

/-! ## Geo cache: lemmas -/

theorem freshEntry_none_iff (gc : Str → Option geoCacheEntry) (ip : Str) (now : Nat) :
    freshEntry gc ip now = none ↔ noFreshEntry gc ip now := by
  unfold freshEntry noFreshEntry
  cases h : gc ip with
  | none => simp
  | some e =>
    by_cases hlt : now < e.Expiry
    · simp [hlt]
    · simp [Nat.not_lt.mp hlt]

theorem getGeoData_miss (gc : Str → Option geoCacheEntry) (ip : Str) (w : GeoCall)
    (h : noFreshEntry gc ip w.now) :
    getGeoData gc ip w =
      match w.resp with
      | .ok latStr lonStr =>
        ⟨latStr, lonStr, mapSet gc ip ⟨latStr, lonStr, w.stored + ttl⟩, true⟩
      | _ => ⟨[], [], gc, true⟩ := by
  unfold getGeoData
  rw [(freshEntry_none_iff gc ip w.now).2 h]

theorem getGeoData_hit (gc : Str → Option geoCacheEntry) (ip : Str) (w : GeoCall)
    (e : geoCacheEntry) (he : gc ip = some e) (hlt : w.now < e.Expiry) :
    getGeoData gc ip w = ⟨e.Lat, e.Lon, gc, false⟩ := by
  unfold getGeoData freshEntry
  simp [he, hlt]

/-- C6: with no fresh entry for the host, a failing lookup returns empty
coordinates, leaves the cache as it was, and a following call (at the same or
a later time) makes the external call again. -/
theorem failed_lookup_not_cached (gc : Str → Option geoCacheEntry) (ip : Str)
    (w w2 : GeoCall) (hmiss : noFreshEntry gc ip w.now)
    (hfail : w.resp.failed = true) (hlater : w.now ≤ w2.now) :
    (getGeoData gc ip w).lat = [] ∧ (getGeoData gc ip w).lon = [] ∧
    (getGeoData gc ip w).called = true ∧
    (getGeoData gc ip w).geoCache = gc ∧
    (getGeoData (getGeoData gc ip w).geoCache ip w2).called = true := by
  have h1 : getGeoData gc ip w = ⟨[], [], gc, true⟩ := by
    rw [getGeoData_miss gc ip w hmiss]
    cases hr : w.resp <;> simp_all [GeoResponse.failed]
  have hmiss2 : noFreshEntry gc ip w2.now := by
    intro e he hlt
    exact hmiss e he (lt_of_le_of_lt hlater hlt)
  rw [h1]
  refine ⟨rfl, rfl, rfl, rfl, ?_⟩
  rw [getGeoData_miss gc ip w2 hmiss2]
  cases w2.resp <;> rfl

theorem failed_lookup_not_cached_witness :
    (getGeoData (fun _ => none) "10.0.0.1".toList ⟨5, .transportError, 7⟩).lat = [] ∧
    (getGeoData (fun _ => none) "10.0.0.1".toList ⟨5, .transportError, 7⟩).lon = [] ∧
    (getGeoData (fun _ => none) "10.0.0.1".toList ⟨5, .transportError, 7⟩).called = true ∧
    (getGeoData (fun _ => none) "10.0.0.1".toList ⟨5, .transportError, 7⟩).geoCache
      = (fun _ => none) ∧
    (getGeoData (getGeoData (fun _ => none) "10.0.0.1".toList
      ⟨5, .transportError, 7⟩).geoCache "10.0.0.1".toList
      ⟨5, .ok "1.0000".toList "2.0000".toList, 9⟩).called = true :=
  failed_lookup_not_cached (fun _ => none) "10.0.0.1".toList ⟨5, .transportError, 7⟩
    ⟨5, .ok "1.0000".toList "2.0000".toList, 9⟩
    (by intro e he; simp at he) (by decide) (by decide)

/-- C7: a successful lookup whose result is stored at clock reading `T`
(`w.stored`) is served from the cache, with no external call and no change of
the cache, at every time before `T + 24h`, and looked up again at every time
after `T + 24h`. -/
theorem cache_ttl (gc : Str → Option geoCacheEntry) (ip lat lon : Str)
    (w : GeoCall) (hmiss : noFreshEntry gc ip w.now) (hok : w.resp = .ok lat lon) :
    (getGeoData gc ip w).called = true ∧
    (getGeoData gc ip w).lat = lat ∧ (getGeoData gc ip w).lon = lon ∧
    (getGeoData gc ip w).geoCache ip = some ⟨lat, lon, w.stored + 24 * 3600 * 1000000000⟩ ∧
    (∀ w2 : GeoCall, w2.now < w.stored + 24 * 3600 * 1000000000 →
      (getGeoData (getGeoData gc ip w).geoCache ip w2).called = false ∧
      (getGeoData (getGeoData gc ip w).geoCache ip w2).lat = lat ∧
      (getGeoData (getGeoData gc ip w).geoCache ip w2).lon = lon ∧
      (getGeoData (getGeoData gc ip w).geoCache ip w2).geoCache
        = (getGeoData gc ip w).geoCache) ∧
    (∀ w2 : GeoCall, w.stored + 24 * 3600 * 1000000000 < w2.now →
      (getGeoData (getGeoData gc ip w).geoCache ip w2).called = true) := by
  have h1 : getGeoData gc ip w =
      ⟨lat, lon, mapSet gc ip ⟨lat, lon, w.stored + ttl⟩, true⟩ := by
    rw [getGeoData_miss gc ip w hmiss, hok]
  have hent : mapSet gc ip ⟨lat, lon, w.stored + ttl⟩ ip
      = some ⟨lat, lon, w.stored + ttl⟩ := by simp [mapSet]
  have httl : ttl = 24 * 3600 * 1000000000 := rfl
  rw [h1]
  refine ⟨rfl, rfl, rfl, ?_, ?_, ?_⟩
  · simpa [httl] using hent
  · intro w2 hlt
    have := getGeoData_hit _ ip w2 _ hent (by simpa [httl] using hlt)
    rw [this]
    exact ⟨rfl, rfl, rfl, rfl⟩
  · intro w2 hgt
    have hm : noFreshEntry (mapSet gc ip ⟨lat, lon, w.stored + ttl⟩) ip w2.now := by
      intro e he
      rw [hent] at he
      cases he
      simp only [httl]
      omega
    rw [getGeoData_miss _ ip w2 hm]
    cases w2.resp <;> rfl

theorem cache_ttl_witness :
    (getGeoData (fun _ => none) "10.0.0.1".toList
      ⟨5, .ok "1.0000".toList "2.0000".toList, 7⟩).called = true ∧
    (getGeoData (getGeoData (fun _ => none) "10.0.0.1".toList
      ⟨5, .ok "1.0000".toList "2.0000".toList, 7⟩).geoCache "10.0.0.1".toList
      ⟨86400000000006, .transportError, 86400000000006⟩).lat = "1.0000".toList ∧
    (getGeoData (getGeoData (fun _ => none) "10.0.0.1".toList
      ⟨5, .ok "1.0000".toList "2.0000".toList, 7⟩).geoCache "10.0.0.1".toList
      ⟨86400000000008, .transportError, 86400000000008⟩).called = true :=
  have h := cache_ttl (fun _ => none) "10.0.0.1".toList "1.0000".toList "2.0000".toList
    ⟨5, .ok "1.0000".toList "2.0000".toList, 7⟩ (by intro e he; simp at he) rfl
  ⟨h.1, (h.2.2.2.2.1 ⟨86400000000006, .transportError, 86400000000006⟩ (by decide)).2.1,
    h.2.2.2.2.2 ⟨86400000000008, .transportError, 86400000000008⟩ (by decide)⟩

/-! ## Key sets -/

theorem mem_insertKey (m : List Str) (k x : Str) :
    x ∈ insertKey m k ↔ x ∈ m ∨ x = k := by
  unfold insertKey
  by_cases h : k ∈ m
  · simp only [h, if_true]
    constructor
    · exact Or.inl
    · rintro (hx | rfl)
      · exact hx
      · exact h
  · simp [h]

theorem nodup_insertKey (m : List Str) (k : Str) (h : m.Nodup) :
    (insertKey m k).Nodup := by
  unfold insertKey
  by_cases hk : k ∈ m
  · simpa [hk] using h
  · simp only [hk, if_false]
    exact List.Nodup.append h (List.nodup_singleton k) (by simpa using hk)

theorem mem_foldl_insertKey (keys m : List Str) (x : Str) :
    x ∈ keys.foldl insertKey m ↔ x ∈ m ∨ x ∈ keys := by
  induction keys generalizing m with
  | nil => simp
  | cons k ks ih =>
    simp only [List.foldl_cons, ih, mem_insertKey, List.mem_cons]
    tauto

theorem nodup_foldl_insertKey (keys m : List Str) (h : m.Nodup) :
    (keys.foldl insertKey m).Nodup := by
  induction keys generalizing m with
  | nil => simpa using h
  | cons k ks ih => exact ih _ (nodup_insertKey m k h)

theorem length_foldl_insertKey (keys : List Str) :
    (keys.foldl insertKey []).length = keys.dedup.length := by
  have hnd := nodup_foldl_insertKey keys [] List.nodup_nil
  have hfs : (keys.foldl insertKey []).toFinset = keys.toFinset := by
    ext x
    simp [mem_foldl_insertKey]
  rw [← List.toFinset_card_of_nodup hnd, hfs, List.card_toFinset]

theorem dedup_length_eq_iff (keys : List Str) :
    keys.dedup.length = keys.length ↔ keys.Nodup := by
  constructor
  · intro h
    have := (List.dedup_sublist keys).eq_of_length h
    exact List.dedup_eq_self.1 this
  · intro h
    rw [List.Nodup.dedup h]

/-! ## Traces -/

theorem wrote_nil (v : Nat) (k : Str) : ¬ wrote [] v k := by
  rintro ⟨l, hl, _⟩
  simp at hl

theorem wrote_append (t u : List Event) (v : Nat) (k : Str) :
    wrote (t ++ u) v k ↔ wrote t v k ∨ wrote u v k := by
  unfold wrote
  constructor
  · rintro ⟨l, hl, hk⟩
    rcases List.mem_append.1 hl with h | h
    · exact Or.inl ⟨l, h, hk⟩
    · exact Or.inr ⟨l, h, hk⟩
  · rintro (⟨l, hl, hk⟩ | ⟨l, hl, hk⟩)
    · exact ⟨l, List.mem_append.2 (Or.inl hl), hk⟩
    · exact ⟨l, List.mem_append.2 (Or.inr hl), hk⟩

theorem wrote_httpGet (ip : Str) (v : Nat) (k : Str) :
    ¬ wrote [Event.httpGet ip] v k := by
  rintro ⟨l, hl, _⟩
  simp at hl

theorem wrote_single (l : Labels) (u v : Nat) (k : Str) :
    wrote [Event.setBanned l u] v k ↔ v = u ∧ k = l.key := by
  unfold wrote
  constructor
  · rintro ⟨l2, hl, hk⟩
    simp only [List.mem_singleton, Event.setBanned.injEq] at hl
    obtain ⟨rfl, rfl⟩ := hl
    exact ⟨rfl, hk.symm⟩
  · rintro ⟨rfl, rfl⟩
    exact ⟨l, by simp, rfl⟩

theorem applyTrace_append (t u : List Event) (g : Labels → Option Nat) :
    applyTrace (t ++ u) g = applyTrace u (applyTrace t g) := by
  simp [applyTrace, List.foldl_append]

/-! ## The loops -/

theorem ipStep_currentBanned (prev : List Str) (jail ip : Str) (w : GeoCall)
    (c : Cycle) :
    (ipStep prev jail ip w c).currentBanned
      = insertKey c.currentBanned (banKey jail ip) := by
  unfold ipStep
  by_cases h : banKey jail ip ∈ prev <;> simp [h]

theorem ipStep_totalBanned (prev : List Str) (jail ip : Str) (w : GeoCall)
    (c : Cycle) :
    (ipStep prev jail ip w c).totalBanned = c.totalBanned := by
  unfold ipStep
  by_cases h : banKey jail ip ∈ prev <;> simp [h]

theorem ipStep_wrote (prev : List Str) (jail ip : Str) (w : GeoCall) (c : Cycle)
    (v : Nat) (k : Str) :
    wrote (ipStep prev jail ip w c).trace v k ↔
      wrote c.trace v k ∨ (v = 1 ∧ k = banKey jail ip ∧ k ∉ prev) := by
  unfold ipStep
  by_cases h : banKey jail ip ∈ prev
  · simp only [h, if_true, wrote_append]
    by_cases hc : (getGeoData c.geoCache ip w).called = true
    · simp only [hc, if_true]
      constructor
      · rintro (h1 | h1)
        · exact Or.inl h1
        · exact absurd h1 (wrote_httpGet _ _ _)
      · rintro (h1 | ⟨_, rfl, h3⟩)
        · exact Or.inl h1
        · exact absurd h h3
    · simp only [hc]
      constructor
      · rintro (h1 | h1)
        · exact Or.inl h1
        · exact absurd h1 (wrote_nil _ _)
      · rintro (h1 | ⟨_, rfl, h3⟩)
        · exact Or.inl h1
        · exact absurd h h3
  · simp only [h, if_false, wrote_append, wrote_single, Labels.key]
    by_cases hc : (getGeoData c.geoCache ip w).called = true
    · simp only [hc, if_true]
      constructor
      · rintro ((h1 | h1) | ⟨rfl, rfl⟩)
        · exact Or.inl h1
        · exact absurd h1 (wrote_httpGet _ _ _)
        · exact Or.inr ⟨rfl, rfl, h⟩
      · rintro (h1 | ⟨rfl, rfl, _⟩)
        · exact Or.inl (Or.inl h1)
        · exact Or.inr ⟨rfl, rfl⟩
    · simp only [hc]
      constructor
      · rintro ((h1 | h1) | ⟨rfl, rfl⟩)
        · exact Or.inl h1
        · exact absurd h1 (wrote_nil _ _)
        · exact Or.inr ⟨rfl, rfl, h⟩
      · rintro (h1 | ⟨rfl, rfl, _⟩)
        · exact Or.inl (Or.inl h1)
        · exact Or.inr ⟨rfl, rfl⟩

theorem ipStep_gauge (prev : List Str) (jail ip : Str) (w : GeoCall) (c : Cycle)
    (g0 : Labels → Option Nat) (h : c.ipBannedGauge = applyTrace c.trace g0) :
    (ipStep prev jail ip w c).ipBannedGauge
      = applyTrace (ipStep prev jail ip w c).trace g0 := by
  unfold ipStep
  by_cases hk : banKey jail ip ∈ prev
  · simp only [hk, if_true, applyTrace_append]
    rw [← h]
    by_cases hc : (getGeoData c.geoCache ip w).called = true
    · simp [hc, applyTrace, applyEvent]
    · simp [hc, applyTrace]
  · simp only [hk, if_false, applyTrace_append]
    rw [← h]
    by_cases hc : (getGeoData c.geoCache ip w).called = true
    · simp [hc, applyTrace, applyEvent]
    · simp [hc, applyTrace, applyEvent]

theorem ipLoop_currentBanned (prev : List Str) (jail : Str) (ips : List Str)
    (geo : Nat → GeoCall) (c : Cycle) :
    (ipLoop prev jail ips geo c).currentBanned
      = (ips.map (banKey jail)).foldl insertKey c.currentBanned := by
  induction ips generalizing geo c with
  | nil => rfl
  | cons ip rest ih =>
    simp only [ipLoop, List.map_cons, List.foldl_cons]
    rw [ih, ipStep_currentBanned]

theorem ipLoop_totalBanned (prev : List Str) (jail : Str) (ips : List Str)
    (geo : Nat → GeoCall) (c : Cycle) :
    (ipLoop prev jail ips geo c).totalBanned = c.totalBanned := by
  induction ips generalizing geo c with
  | nil => rfl
  | cons ip rest ih =>
    simp only [ipLoop]
    rw [ih, ipStep_totalBanned]

theorem ipLoop_wrote (prev : List Str) (jail : Str) (ips : List Str)
    (geo : Nat → GeoCall) (c : Cycle) (v : Nat) (k : Str) :
    wrote (ipLoop prev jail ips geo c).trace v k ↔
      wrote c.trace v k ∨ (v = 1 ∧ k ∈ ips.map (banKey jail) ∧ k ∉ prev) := by
  induction ips generalizing geo c with
  | nil => simp [ipLoop]
  | cons ip rest ih =>
    simp only [ipLoop, List.map_cons, List.mem_cons]
    rw [ih, ipStep_wrote]
    tauto

theorem ipLoop_gauge (prev : List Str) (jail : Str) (ips : List Str)
    (geo : Nat → GeoCall) (c : Cycle) (g0 : Labels → Option Nat)
    (h : c.ipBannedGauge = applyTrace c.trace g0) :
    (ipLoop prev jail ips geo c).ipBannedGauge
      = applyTrace (ipLoop prev jail ips geo c).trace g0 := by
  induction ips generalizing geo c with
  | nil => exact h
  | cons ip rest ih =>
    simp only [ipLoop]
    exact ih _ _ (ipStep_gauge prev jail ip (geo 0) c g0 h)

theorem jailLoop_currentBanned (prev : List Str) (jails : List Str)
    (banip : Nat → CmdResult) (geo : Nat → Nat → GeoCall) (c : Cycle) :
    (jailLoop prev jails banip geo c).currentBanned
      = (retrievedKeys jails banip).foldl insertKey c.currentBanned := by
  induction jails generalizing banip geo c with
  | nil => rfl
  | cons jail rest ih =>
    simp only [jailLoop, retrievedKeys, List.foldl_append]
    rw [ih]
    congr 1
    unfold jailStep
    cases getBannedIPsForJail (banip 0) with
    | none => rfl
    | some ips => exact ipLoop_currentBanned prev jail ips (geo 0) c

theorem jailLoop_totalBanned (prev : List Str) (jails : List Str)
    (banip : Nat → CmdResult) (geo : Nat → Nat → GeoCall) (c : Cycle) :
    (jailLoop prev jails banip geo c).totalBanned
      = c.totalBanned + (retrievedKeys jails banip).length := by
  induction jails generalizing banip geo c with
  | nil => rfl
  | cons jail rest ih =>
    simp only [jailLoop, retrievedKeys, List.length_append]
    rw [ih]
    unfold jailStep
    cases getBannedIPsForJail (banip 0) with
    | none => simp
    | some ips =>
      simp only [List.length_map]
      rw [ipLoop_totalBanned]
      omega

theorem jailLoop_wrote (prev : List Str) (jails : List Str)
    (banip : Nat → CmdResult) (geo : Nat → Nat → GeoCall) (c : Cycle)
    (v : Nat) (k : Str) :
    wrote (jailLoop prev jails banip geo c).trace v k ↔
      wrote c.trace v k ∨ (v = 1 ∧ k ∈ retrievedKeys jails banip ∧ k ∉ prev) := by
  induction jails generalizing banip geo c with
  | nil => simp [jailLoop, retrievedKeys]
  | cons jail rest ih =>
    simp only [jailLoop, retrievedKeys, List.mem_append]
    rw [ih]
    unfold jailStep
    cases getBannedIPsForJail (banip 0) with
    | none => simp
    | some ips =>
      simp only
      rw [ipLoop_wrote]
      tauto

theorem jailLoop_gauge (prev : List Str) (jails : List Str)
    (banip : Nat → CmdResult) (geo : Nat → Nat → GeoCall) (c : Cycle)
    (g0 : Labels → Option Nat) (h : c.ipBannedGauge = applyTrace c.trace g0) :
    (jailLoop prev jails banip geo c).ipBannedGauge
      = applyTrace (jailLoop prev jails banip geo c).trace g0 := by
  induction jails generalizing banip geo c with
  | nil => exact h
  | cons jail rest ih =>
    simp only [jailLoop]
    apply ih
    unfold jailStep
    cases getBannedIPsForJail (banip 0) with
    | none => exact h
    | some ips => exact ipLoop_gauge prev jail ips (geo 0) c g0 h

theorem retrievedKeys_congr (jails : List Str) (b1 b2 : Nat → CmdResult)
    (h : ∀ i, getBannedIPsForJail (b1 i) = getBannedIPsForJail (b2 i)) :
    retrievedKeys jails b1 = retrievedKeys jails b2 := by
  induction jails generalizing b1 b2 with
  | nil => rfl
  | cons jail rest ih =>
    simp only [retrievedKeys]
    rw [h 0, ih (fun i => b1 (i + 1)) (fun i => b2 (i + 1)) (fun i => h (i + 1))]

theorem mem_banKey_colon (jail ip : Str) : ':' ∈ banKey jail ip := by
  simp [banKey]

theorem retrievedKeys_wellFormed (jails : List Str) (banip : Nat → CmdResult) :
    keysWellFormed (retrievedKeys jails banip) := by
  induction jails generalizing banip with
  | nil => intro k hk; simp [retrievedKeys] at hk
  | cons jail rest ih =>
    intro k hk
    simp only [retrievedKeys, List.mem_append] at hk
    rcases hk with hk | hk
    · cases hb : getBannedIPsForJail (banip 0) with
      | none => simp [hb] at hk
      | some ips =>
        simp only [hb, List.mem_map] at hk
        obtain ⟨ip, _, rfl⟩ := hk
        exact mem_banKey_colon jail ip
    · exact ih _ k hk

/-! ## The release loop -/

theorem span_ne_eq (s : Str) (sep : Char) :
    (∃ a b, s.span (fun c => c != sep) = (a, sep :: b) ∧ s = a ++ sep :: b ∧ sep ∉ a) ∨
    (s.span (fun c => c != sep) = (s, []) ∧ sep ∉ s) := by
  induction s with
  | nil => right; simp [List.span, List.span.loop]
  | cons c cs ih =>
    by_cases hc : c = sep
    · left
      subst hc
      exact ⟨[], cs, by simp [List.span_eq_take_drop], rfl, by simp⟩
    · have hne : (c != sep) = true := by simpa using hc
      rcases ih with ⟨a, b, h1, h2, h3⟩ | ⟨h1, h2⟩
      · left
        refine ⟨c :: a, b, ?_, by rw [h2]; rfl, ?_⟩
        · rw [List.span_eq_take_drop] at h1 ⊢
          simp only [List.takeWhile_cons, List.dropWhile_cons, hne, if_true]
          rw [Prod.mk.injEq] at h1 ⊢
          exact ⟨by rw [h1.1], h1.2⟩
        · simp only [List.mem_cons, not_or]
          exact ⟨fun h => hc h.symm, h3⟩
      · right
        refine ⟨?_, ?_⟩
        · rw [List.span_eq_take_drop] at h1 ⊢
          simp only [List.takeWhile_cons, List.dropWhile_cons, hne, if_true]
          rw [Prod.mk.injEq] at h1 ⊢
          exact ⟨by rw [h1.1], h1.2⟩
        · simp only [List.mem_cons, not_or]
          exact ⟨fun h => hc h.symm, h2⟩

theorem SplitN2_of_mem (k : Str) (h : ':' ∈ k) :
    ∃ jail ip, SplitN2 k ':' = [jail, ip] ∧ banKey jail ip = k ∧ ':' ∉ jail := by
  rcases span_ne_eq k ':' with ⟨a, b, h1, h2, h3⟩ | ⟨_, h2⟩
  · exact ⟨a, b, by unfold SplitN2; rw [h1], h2.symm, h3⟩
  · exact absurd h h2

theorem releaseLoop_spec (cur : List Str) (gc : Str → Option geoCacheEntry)
    (keys : List Str) (r : (Labels → Option Nat) × List Event)
    (hwf : ∀ k ∈ keys, k ∉ cur → ':' ∈ k) :
    ∃ r2, releaseLoop cur gc keys r = some r2 ∧
      (∀ v k, wrote r2.2 v k ↔ wrote r.2 v k ∨ (v = 0 ∧ k ∈ keys ∧ k ∉ cur)) ∧
      (∀ g0, r.1 = applyTrace r.2 g0 → r2.1 = applyTrace r2.2 g0) := by
  induction keys generalizing r with
  | nil => exact ⟨r, rfl, by simp, fun _ h => h⟩
  | cons key rest ih =>
    have hwf2 : ∀ k ∈ rest, k ∉ cur → ':' ∈ k :=
      fun k hk => hwf k (List.mem_cons_of_mem _ hk)
    by_cases hc : key ∈ cur
    · obtain ⟨r2, h1, h2, h3⟩ := ih r hwf2
      refine ⟨r2, by simp [releaseLoop, hc, h1], ?_, h3⟩
      intro v k
      rw [h2]
      simp only [List.mem_cons]
      constructor
      · rintro (h | ⟨h, h4, h5⟩)
        · exact Or.inl h
        · exact Or.inr ⟨h, Or.inr h4, h5⟩
      · rintro (h | ⟨h, rfl | h4, h5⟩)
        · exact Or.inl h
        · exact absurd hc h5
        · exact Or.inr ⟨h, h4, h5⟩
    · obtain ⟨jail, ip, hs, hkey, _⟩ :=
        SplitN2_of_mem key (hwf key (List.mem_cons_self _ _) hc)
      obtain ⟨r2, h1, h2, h3⟩ := ih
        (mapSet r.1 ⟨ip, jail, (cachedCoords gc ip).1, (cachedCoords gc ip).2⟩ 0,
          r.2 ++ [Event.setBanned
            ⟨ip, jail, (cachedCoords gc ip).1, (cachedCoords gc ip).2⟩ 0]) hwf2
      refine ⟨r2, by simp [releaseLoop, hc, hs, h1], ?_, ?_⟩
      · intro v k
        rw [h2]
        simp only [wrote_append, wrote_single, Labels.key, hkey, List.mem_cons]
        constructor
        · rintro ((h | ⟨rfl, rfl⟩) | ⟨h, h4, h5⟩)
          · exact Or.inl h
          · exact Or.inr ⟨rfl, Or.inl rfl, hc⟩
          · exact Or.inr ⟨h, Or.inr h4, h5⟩
        · rintro (h | ⟨rfl, rfl | h4, h5⟩)
          · exact Or.inl (Or.inl h)
          · exact Or.inl (Or.inr ⟨rfl, rfl⟩)
          · exact Or.inr ⟨rfl, h4, h5⟩
      · intro g0 hg
        apply h3
        simp only [applyTrace_append]
        rw [← hg]
        simp [applyTrace, applyEvent]

theorem applyTrace_untouched (t : List Event) (g : Labels → Option Nat) (l : Labels)
    (h : ∀ v, Event.setBanned l v ∉ t) : applyTrace t g l = g l := by
  induction t generalizing g with
  | nil => rfl
  | cons e rest ih =>
    have hrest : ∀ v, Event.setBanned l v ∉ rest :=
      fun v hv => h v (List.mem_cons_of_mem _ hv)
    simp only [applyTrace, List.foldl_cons] at ih ⊢
    rw [ih _ hrest]
    cases e with
    | httpGet ip => rfl
    | setBanned l2 v =>
      have hne : l ≠ l2 := by
        rintro rfl
        exact h v (List.mem_cons_self _ _)
      simp [applyEvent, mapSet, hne]

theorem applyTrace_written (t : List Event) (g : Labels → Option Nat) (l : Labels)
    (v : Nat) (hin : Event.setBanned l v ∈ t)
    (hall : ∀ u, Event.setBanned l u ∈ t → u = v) : applyTrace t g l = some v := by
  induction t generalizing g with
  | nil => simp at hin
  | cons e rest ih =>
    have hrest : ∀ u, Event.setBanned l u ∈ rest → u = v :=
      fun u hu => hall u (List.mem_cons_of_mem _ hu)
    by_cases hr : Event.setBanned l v ∈ rest
    · exact ih (applyEvent g e) hr hrest
    · have he : e = Event.setBanned l v := by
        rcases List.mem_cons.1 hin with h | h
        · exact h.symm
        · exact absurd h hr
      have hnone : ∀ u, Event.setBanned l u ∉ rest := by
        intro u hu
        have := hrest u hu
        subst this
        exact hr hu
      have := applyTrace_untouched rest (applyEvent g e) l hnone
      simp only [applyTrace, List.foldl_cons] at this ⊢
      rw [this, he]
      simp [applyEvent, mapSet]

/-- What one run that obtains the jail list does. -/
theorem collect_spec (w : World) (s : State) (jails : List Str)
    (hj : getJailList w.status = some jails)
    (hwf : ∀ k ∈ s.previousBanned, k ∉ currentBannedOf w s jails → ':' ∈ k) :
    ∃ o, collectFail2BanMetrics w s = some o ∧
      o.state.previousBanned = currentBannedOf w s jails ∧
      currentBannedOf w s jails = (retrievedKeys jails w.banip).foldl insertKey [] ∧
      o.state.totalBannedIPsGauge = (retrievedKeys jails w.banip).length ∧
      (∀ v k, wrote o.trace v k ↔
        (v = 1 ∧ k ∈ retrievedKeys jails w.banip ∧ k ∉ s.previousBanned) ∨
        (v = 0 ∧ k ∈ s.previousBanned ∧ k ∉ currentBannedOf w s jails)) ∧
      o.state.ipBannedGauge = applyTrace o.trace s.ipBannedGauge := by
  have hcur : currentBannedOf w s jails
      = (jailLoop s.previousBanned jails w.banip w.geo
          ⟨[], 0, s.geoCache, s.ipBannedGauge, []⟩).currentBanned := rfl
  generalize hc : jailLoop s.previousBanned jails w.banip w.geo
    ⟨[], 0, s.geoCache, s.ipBannedGauge, []⟩ = c at hcur
  have hcc : c.currentBanned = (retrievedKeys jails w.banip).foldl insertKey [] := by
    rw [← hc, jailLoop_currentBanned]
  have htot : c.totalBanned = (retrievedKeys jails w.banip).length := by
    rw [← hc, jailLoop_totalBanned, Nat.zero_add]
  have hwr : ∀ v k, wrote c.trace v k ↔
      (v = 1 ∧ k ∈ retrievedKeys jails w.banip ∧ k ∉ s.previousBanned) := by
    intro v k
    rw [← hc, jailLoop_wrote]
    constructor
    · rintro (h | h)
      · exact absurd h (wrote_nil v k)
      · exact h
    · exact Or.inr
  have hga : c.ipBannedGauge = applyTrace c.trace s.ipBannedGauge := by
    rw [← hc]
    exact jailLoop_gauge s.previousBanned jails w.banip w.geo _ s.ipBannedGauge rfl
  rw [hcur] at hwf ⊢
  obtain ⟨r2, h1, h2, h3⟩ := releaseLoop_spec c.currentBanned c.geoCache
    s.previousBanned (c.ipBannedGauge, c.trace) hwf
  refine ⟨⟨⟨c.currentBanned, c.geoCache, r2.1, c.totalBanned⟩, r2.2⟩,
    ?_, rfl, hcc, htot, ?_, h3 s.ipBannedGauge hga⟩
  · unfold collectFail2BanMetrics
    simp only [hj, hc, h1]
  · intro v k
    simp only [h2, hwr]

theorem mem_currentBannedOf (w : World) (s : State) (jails : List Str) (k : Str) :
    k ∈ currentBannedOf w s jails ↔ k ∈ retrievedKeys jails w.banip := by
  unfold currentBannedOf
  rw [jailLoop_currentBanned, mem_foldl_insertKey]
  simp

theorem currentBannedOf_wellFormed (w : World) (s : State) (jails : List Str) :
    keysWellFormed (currentBannedOf w s jails) := by
  intro k hk
  exact retrievedKeys_wellFormed jails w.banip k ((mem_currentBannedOf w s jails k).1 hk)

theorem collect_keysWellFormed (w : World) (s : State) (o : Outcome)
    (h : collectFail2BanMetrics w s = some o)
    (hs : keysWellFormed s.previousBanned) : keysWellFormed o.state.previousBanned := by
  cases hj : getJailList w.status with
  | none =>
    simp only [collectFail2BanMetrics, hj, Option.some.injEq] at h
    rw [← h]
    exact hs
  | some jails =>
    obtain ⟨o2, ho2, hp, _⟩ := collect_spec w s jails hj (fun k hk _ => hs k hk)
    rw [h, Option.some.injEq] at ho2
    rw [ho2, hp]
    exact currentBannedOf_wellFormed w s jails

/-- Every key of a snapshot the program can hold has the form `jail:host`, so
the release loop never indexes past the end of `parts`. -/
theorem reachable_keysWellFormed (s : State) (h : Reachable s) :
    keysWellFormed s.previousBanned := by
  induction h with
  | init => intro k hk; simp [initialState] at hk
  | run w s o _ ho ih => exact collect_keysWellFormed w s o ho ih
  | reorder s m _ hp ih => exact fun k hk => ih k (hp.mem_iff.1 hk)

/-! ## The reconciliation cycle: theorems -/

/-- C1: a run that obtains the jail list sets the ban-status gauge to 1 for
exactly the keys in current \ previous and to 0 for exactly the keys in
previous \ current, where current is the map `currentBanned` built in the run;
no key is set both ways, and a key in both previous and current is not
written: no `Set` call names it and its series keep their values. After the
run a key of current \ previous has a series at 1 and a key of
previous \ current has a series at 0. -/
theorem diff_published (w : World) (s : State) (jails : List Str)
    (hj : getJailList w.status = some jails)
    (hwf : keysWellFormed s.previousBanned) :
    ∃ o, collectFail2BanMetrics w s = some o ∧
      (∀ k, wrote o.trace 1 k ↔
        k ∈ currentBannedOf w s jails ∧ k ∉ s.previousBanned) ∧
      (∀ k, wrote o.trace 0 k ↔
        k ∈ s.previousBanned ∧ k ∉ currentBannedOf w s jails) ∧
      (∀ l v, Event.setBanned l v ∈ o.trace → v = 0 ∨ v = 1) ∧
      (∀ k, ¬ (wrote o.trace 1 k ∧ wrote o.trace 0 k)) ∧
      (∀ l v, Event.setBanned l v ∈ o.trace →
        ¬ (l.key ∈ s.previousBanned ∧ l.key ∈ currentBannedOf w s jails)) ∧
      (∀ l, l.key ∈ s.previousBanned → l.key ∈ currentBannedOf w s jails →
        o.state.ipBannedGauge l = s.ipBannedGauge l) ∧
      (∀ k, k ∈ currentBannedOf w s jails → k ∉ s.previousBanned →
        ∃ l : Labels, l.key = k ∧ o.state.ipBannedGauge l = some 1) ∧
      (∀ k, k ∈ s.previousBanned → k ∉ currentBannedOf w s jails →
        ∃ l : Labels, l.key = k ∧ o.state.ipBannedGauge l = some 0) := by
  obtain ⟨o, ho, _, _, _, hw, hg⟩ :=
    collect_spec w s jails hj (fun k hk _ => hwf k hk)
  have hboth : ∀ l v, Event.setBanned l v ∈ o.trace →
      ¬ (l.key ∈ s.previousBanned ∧ l.key ∈ currentBannedOf w s jails) := by
    intro l v hl ⟨hp, hc⟩
    rcases (hw v l.key).1 ⟨l, hl, rfl⟩ with ⟨_, _, h⟩ | ⟨_, _, h⟩
    · exact h hp
    · exact h hc
  have h1 : ∀ k, wrote o.trace 1 k ↔
      k ∈ currentBannedOf w s jails ∧ k ∉ s.previousBanned := by
    intro k
    rw [hw 1 k, mem_currentBannedOf]
    simp
  have h0 : ∀ k, wrote o.trace 0 k ↔
      k ∈ s.previousBanned ∧ k ∉ currentBannedOf w s jails := by
    intro k
    rw [hw 0 k]
    simp
  have hval : ∀ l v, Event.setBanned l v ∈ o.trace → v = 0 ∨ v = 1 := by
    intro l v hl
    rcases (hw v l.key).1 ⟨l, hl, rfl⟩ with ⟨h, _⟩ | ⟨h, _⟩
    · exact Or.inr h
    · exact Or.inl h
  have hdisj : ∀ k, ¬ (wrote o.trace 1 k ∧ wrote o.trace 0 k) := by
    rintro k ⟨ha, hb⟩
    exact ((h0 k).1 hb).2 ((h1 k).1 ha).1
  refine ⟨o, ho, h1, h0, hval, hdisj, hboth, ?_, ?_, ?_⟩
  · intro l hp hc
    rw [hg]
    exact applyTrace_untouched o.trace s.ipBannedGauge l
      (fun v hv => hboth l v hv ⟨hp, hc⟩)
  · intro k hc hp
    obtain ⟨l, hl, hk⟩ := (h1 k).2 ⟨hc, hp⟩
    refine ⟨l, hk, ?_⟩
    rw [hg]
    apply applyTrace_written o.trace s.ipBannedGauge l 1 hl
    intro u hu
    rcases hval l u hu with rfl | rfl
    · exact absurd ⟨⟨l, hl, hk⟩, ⟨l, hu, hk⟩⟩ (hdisj k)
    · rfl
  · intro k hp hc
    obtain ⟨l, hl, hk⟩ := (h0 k).2 ⟨hp, hc⟩
    refine ⟨l, hk, ?_⟩
    rw [hg]
    apply applyTrace_written o.trace s.ipBannedGauge l 0 hl
    intro u hu
    rcases hval l u hu with rfl | rfl
    · rfl
    · exact absurd ⟨⟨l, hu, hk⟩, ⟨l, hl, hk⟩⟩ (hdisj k)

theorem diff_published_witness :
    ∃ o, collectFail2BanMetrics scenarioWorld scenarioState = some o ∧
      (∀ k, wrote o.trace 1 k ↔
        k ∈ currentBannedOf scenarioWorld scenarioState ["jailA".toList] ∧
        k ∉ scenarioState.previousBanned) ∧
      (∀ k, wrote o.trace 0 k ↔
        k ∈ scenarioState.previousBanned ∧
        k ∉ currentBannedOf scenarioWorld scenarioState ["jailA".toList]) ∧
      (∀ l v, Event.setBanned l v ∈ o.trace → v = 0 ∨ v = 1) ∧
      (∀ k, ¬ (wrote o.trace 1 k ∧ wrote o.trace 0 k)) ∧
      (∀ l v, Event.setBanned l v ∈ o.trace →
        ¬ (l.key ∈ scenarioState.previousBanned ∧
          l.key ∈ currentBannedOf scenarioWorld scenarioState ["jailA".toList])) ∧
      (∀ l, l.key ∈ scenarioState.previousBanned →
        l.key ∈ currentBannedOf scenarioWorld scenarioState ["jailA".toList] →
        o.state.ipBannedGauge l = scenarioState.ipBannedGauge l) ∧
      (∀ k, k ∈ currentBannedOf scenarioWorld scenarioState ["jailA".toList] →
        k ∉ scenarioState.previousBanned →
        ∃ l : Labels, l.key = k ∧ o.state.ipBannedGauge l = some 1) ∧
      (∀ k, k ∈ scenarioState.previousBanned →
        k ∉ currentBannedOf scenarioWorld scenarioState ["jailA".toList] →
        ∃ l : Labels, l.key = k ∧ o.state.ipBannedGauge l = some 0) :=
  diff_published scenarioWorld scenarioState ["jailA".toList] (by decide)
    (by unfold keysWellFormed; decide)

theorem mem_retrievedKeys (jails : List Str) (banip : Nat → CmdResult) (k : Str) :
    k ∈ retrievedKeys jails banip ↔
      ∃ i jail ips ip, jails[i]? = some jail ∧
        getBannedIPsForJail (banip i) = some ips ∧ ip ∈ ips ∧ k = banKey jail ip := by
  induction jails generalizing banip with
  | nil => simp [retrievedKeys]
  | cons j rest ih =>
    simp only [retrievedKeys, List.mem_append, ih]
    constructor
    · rintro (h | ⟨i, jail, ips, ip, h1, h2, h3, h4⟩)
      · cases hb : getBannedIPsForJail (banip 0) with
        | none => simp [hb] at h
        | some ips =>
          simp only [hb, List.mem_map] at h
          obtain ⟨ip, hip, rfl⟩ := h
          exact ⟨0, j, ips, ip, by simp, hb, hip, rfl⟩
      · exact ⟨i + 1, jail, ips, ip, by simpa using h1, h2, h3, h4⟩
    · rintro ⟨i, jail, ips, ip, h1, h2, h3, h4⟩
      cases i with
      | zero =>
        left
        simp only [List.getElem?_cons_zero, Option.some.injEq] at h1
        subst h1
        simp only [h2, List.mem_map]
        exact ⟨ip, h3, h4.symm⟩
      | succ i =>
        right
        exact ⟨i, jail, ips, ip, by simpa using h1, h2, h3, h4⟩

/-- C5: when the status command fails, `getJailList` returns an error and the
run stops there: the stored snapshot, every ban-status series, the
total-banned gauge and the geo cache are what they were, no series is set and
no lookup is made. -/
theorem jail_list_failure_aborts (w : World) (s : State)
    (h : w.status.err = true) :
    getJailList w.status = none ∧
    collectFail2BanMetrics w s = some ⟨s, []⟩ := by
  have hj : getJailList w.status = none := by simp [getJailList, h]
  refine ⟨hj, ?_⟩
  unfold collectFail2BanMetrics
  rw [hj]

theorem jail_list_failure_aborts_witness :
    getJailList statusDownWorld.status = none ∧
    collectFail2BanMetrics statusDownWorld scenarioState = some ⟨scenarioState, []⟩ :=
  jail_list_failure_aborts statusDownWorld scenarioState (by decide)

/-- C9: after a run that obtains the jail list, the stored snapshot holds
exactly the keys `jail:host` of the hosts returned by the ban queries that
succeeded in this run (the jail at position `i` of the list, its query
answered with the list `ips`), each once; failures of other jails do not
matter and nothing of the old snapshot is kept. -/
theorem snapshot_is_retrieved (w : World) (s : State) (jails : List Str)
    (hj : getJailList w.status = some jails)
    (hwf : keysWellFormed s.previousBanned) :
    ∃ o, collectFail2BanMetrics w s = some o ∧
      o.state.previousBanned.Nodup ∧
      ∀ k, k ∈ o.state.previousBanned ↔
        ∃ i jail ips ip, jails[i]? = some jail ∧
          getBannedIPsForJail (w.banip i) = some ips ∧ ip ∈ ips ∧
          k = banKey jail ip := by
  obtain ⟨o, ho, hp, hc, _, _, _⟩ :=
    collect_spec w s jails hj (fun k hk _ => hwf k hk)
  refine ⟨o, ho, ?_, ?_⟩
  · rw [hp, hc]
    exact nodup_foldl_insertKey _ [] List.nodup_nil
  · intro k
    rw [hp, mem_currentBannedOf, mem_retrievedKeys]

theorem snapshot_is_retrieved_witness :
    ∃ o, collectFail2BanMetrics scenarioWorld scenarioState = some o ∧
      o.state.previousBanned.Nodup ∧
      ∀ k, k ∈ o.state.previousBanned ↔
        ∃ i jail ips ip, ["jailA".toList][i]? = some jail ∧
          getBannedIPsForJail (scenarioWorld.banip i) = some ips ∧ ip ∈ ips ∧
          k = banKey jail ip :=
  snapshot_is_retrieved scenarioWorld scenarioState ["jailA".toList] (by decide)
    (by unfold keysWellFormed; decide)

/-- C10: two runs in a row that get the same jail list and the same ban
lists (the lookups may answer anything, and differently): the second run sets
no ban-status series, so every series keeps its value, and the stored snapshot
and the total-banned gauge are what the first run left. -/
theorem second_run_idle (w1 w2 : World) (s : State) (jails : List Str)
    (hj1 : getJailList w1.status = some jails)
    (hj2 : getJailList w2.status = some jails)
    (hb : ∀ i, getBannedIPsForJail (w2.banip i) = getBannedIPsForJail (w1.banip i))
    (hwf : keysWellFormed s.previousBanned) :
    ∃ o1 o2, collectFail2BanMetrics w1 s = some o1 ∧
      collectFail2BanMetrics w2 o1.state = some o2 ∧
      (∀ l v, Event.setBanned l v ∉ o2.trace) ∧
      o2.state.ipBannedGauge = o1.state.ipBannedGauge ∧
      o2.state.previousBanned = o1.state.previousBanned ∧
      o2.state.totalBannedIPsGauge = o1.state.totalBannedIPsGauge := by
  obtain ⟨o1, ho1, hp1, hc1, ht1, _, _⟩ :=
    collect_spec w1 s jails hj1 (fun k hk _ => hwf k hk)
  have hkeys : retrievedKeys jails w2.banip = retrievedKeys jails w1.banip :=
    retrievedKeys_congr jails w2.banip w1.banip hb
  have hsame : currentBannedOf w2 o1.state jails = o1.state.previousBanned := by
    unfold currentBannedOf
    rw [jailLoop_currentBanned, hkeys, hp1, hc1]
  obtain ⟨o2, ho2, hp2, _, ht2, hw2, hg2⟩ :=
    collect_spec w2 o1.state jails hj2
      (fun k hk hn => absurd (hsame ▸ hk) hn)
  have hnone : ∀ l v, Event.setBanned l v ∉ o2.trace := by
    intro l v hl
    rcases (hw2 v l.key).1 ⟨l, hl, rfl⟩ with ⟨_, hk, hn⟩ | ⟨_, hk, hn⟩
    · apply hn
      rw [hp1, mem_currentBannedOf, ← hkeys]
      exact hk
    · exact hn (hsame ▸ hk)
  refine ⟨o1, o2, ho1, ho2, hnone, ?_, ?_, ?_⟩
  · rw [hg2]
    funext l
    exact applyTrace_untouched o2.trace _ l (hnone l)
  · rw [hp2, hsame]
  · rw [ht2, ht1, hkeys]

theorem second_run_idle_witness :
    ∃ o1 o2, collectFail2BanMetrics scenarioWorld scenarioState = some o1 ∧
      collectFail2BanMetrics scenarioWorldAgain o1.state = some o2 ∧
      (∀ l v, Event.setBanned l v ∉ o2.trace) ∧
      o2.state.ipBannedGauge = o1.state.ipBannedGauge ∧
      o2.state.previousBanned = o1.state.previousBanned ∧
      o2.state.totalBannedIPsGauge = o1.state.totalBannedIPsGauge :=
  second_run_idle scenarioWorld scenarioWorldAgain scenarioState ["jailA".toList] (by decide) (by decide) (fun _ => rfl)
    (by unfold keysWellFormed; decide)

/-- C4, as stated, fails: jail `sshd` lists host 1.2.3.4 twice; the snapshot
has the one key `sshd:1.2.3.4` and the total-banned gauge is set to 2. -/
theorem total_counts_repeated_host :
    (collectFail2BanMetrics repeatedHostWorld initialState).map
        (fun o => (o.state.previousBanned, o.state.totalBannedIPsGauge))
      = some (["sshd:1.2.3.4".toList], 2) := by
  decide

/-- C4, amended: in a run that obtains the jail list, the total-banned gauge
is set to the number of hosts returned by the ban queries that succeeded,
every list entry counted (a host listed twice, or listed by a jail named twice,
counts twice); the snapshot holds each key once, and the gauge equals the
number of keys of the snapshot exactly when no key was retrieved twice. -/
theorem total_is_list_length (w : World) (s : State) (jails : List Str)
    (hj : getJailList w.status = some jails)
    (hwf : keysWellFormed s.previousBanned) :
    ∃ o, collectFail2BanMetrics w s = some o ∧
      o.state.totalBannedIPsGauge = (retrievedKeys jails w.banip).length ∧
      o.state.previousBanned.Nodup ∧
      (o.state.totalBannedIPsGauge = o.state.previousBanned.length ↔
        (retrievedKeys jails w.banip).Nodup) := by
  obtain ⟨o, ho, hp, hc, ht, _, _⟩ :=
    collect_spec w s jails hj (fun k hk _ => hwf k hk)
  refine ⟨o, ho, ht, ?_, ?_⟩
  · rw [hp, hc]
    exact nodup_foldl_insertKey _ [] List.nodup_nil
  · rw [ht, hp, hc, length_foldl_insertKey, ← dedup_length_eq_iff]
    exact eq_comm

theorem total_is_list_length_witness :
    ∃ o, collectFail2BanMetrics scenarioWorld scenarioState = some o ∧
      o.state.totalBannedIPsGauge
        = (retrievedKeys ["jailA".toList] scenarioWorld.banip).length ∧
      o.state.previousBanned.Nodup ∧
      (o.state.totalBannedIPsGauge = o.state.previousBanned.length ↔
        (retrievedKeys ["jailA".toList] scenarioWorld.banip).Nodup) :=
  total_is_list_length scenarioWorld scenarioState ["jailA".toList] (by decide)
    (by unfold keysWellFormed; decide)

/-- C2, on the code: the snapshot holds `jailA:10.0.0.1`, published at 1; the
jail list is obtained and the ban query of `jailA` fails. The run sets the
series of the host to 0 and stores the empty snapshot. -/
theorem failed_jail_is_released :
    (collectFail2BanMetrics jailDownWorld scenarioState).map
        (fun o => (o.state.previousBanned,
          o.state.ipBannedGauge ⟨"10.0.0.1".toList, "jailA".toList, [], []⟩,
          o.trace))
      = some ([], some 0,
          [Event.setBanned ⟨"10.0.0.1".toList, "jailA".toList, [], []⟩ 0]) := by
  decide

theorem reachable_runCycles (ws : List World) (s s2 : State) (hs : Reachable s)
    (h : runCycles ws s = some s2) : Reachable s2 := by
  induction ws generalizing s with
  | nil =>
    simp only [runCycles, Option.some.injEq] at h
    exact h ▸ hs
  | cons w rest ih =>
    simp only [runCycles] at h
    cases ho : collectFail2BanMetrics w s with
    | none => simp [ho] at h
    | some o =>
      simp only [ho] at h
      exact ih o.state (Reachable.run w s o hs ho) h

/-- C3, on the code: three runs from the initial state. Jail `sshd` bans
10.0.0.1 while the lookup fails, so the series with empty coordinates is set
to 1; in the next run the lookup answers and fills the cache; then the host is
released and the series with the cached coordinates is set to 0. The state
reached has an empty snapshot and the series with empty coordinates at 1. -/
theorem stale_series_reachable :
    ∃ s, Reachable s ∧ s.previousBanned = [] ∧
      s.ipBannedGauge ⟨"10.0.0.1".toList, "sshd".toList, [], []⟩ = some 1 ∧
      s.ipBannedGauge
        ⟨"10.0.0.1".toList, "sshd".toList, "1.0000".toList, "2.0000".toList⟩
        = some 0 := by
  have h : (runCycles [staleWorld1, staleWorld2, staleWorld3] initialState).map
      (fun s => (s.previousBanned,
        s.ipBannedGauge ⟨"10.0.0.1".toList, "sshd".toList, [], []⟩,
        s.ipBannedGauge
          ⟨"10.0.0.1".toList, "sshd".toList, "1.0000".toList, "2.0000".toList⟩))
      = some ([], some 1, some 0) := by
    decide
  cases hr : runCycles [staleWorld1, staleWorld2, staleWorld3] initialState with
  | none => simp [hr] at h
  | some s =>
    simp only [hr, Option.map_some', Option.some.injEq, Prod.mk.injEq] at h
    exact ⟨s, reachable_runCycles _ _ _ Reachable.init hr, h.1, h.2.1, h.2.2⟩

/-! ## Host tokens -/

open RegularExpression in
theorem mem_reDigit (x : Str) (h : x ∈ reDigit.matches') :
    ∃ c, x = [c] ∧ c.isDigit = true := by
  simp only [reDigit, matches'_add, matches'_char, Language.mem_add] at h
  rcases h with ((((((((h | h) | h) | h) | h) | h) | h) | h) | h) | h <;>
    exact ⟨_, h, by decide⟩

open RegularExpression in
theorem mem_reDigits13 (x : Str) (h : x ∈ reDigits13.matches') :
    digits13 x = true := by
  simp only [reDigits13, matches'_mul, matches'_add, matches'_epsilon,
    Language.mem_mul, Language.mem_add, Language.mem_one] at h
  obtain ⟨a, ha, b, hb, rfl⟩ := h
  obtain ⟨c1, rfl, h1⟩ := mem_reDigit a ha
  rcases hb with rfl | ⟨a2, ha2, b2, hb2, rfl⟩
  · simp [digits13, h1]
  · obtain ⟨c2, rfl, h2⟩ := mem_reDigit a2 ha2
    rcases hb2 with rfl | hb2
    · simp [digits13, h1, h2]
    · obtain ⟨c3, rfl, h3⟩ := mem_reDigit b2 hb2
      simp [digits13, h1, h2, h3]

open RegularExpression in
theorem mem_reDotGroup (x : Str) (h : x ∈ reDotGroup.matches') :
    ∃ g, x = '.' :: g ∧ digits13 g = true := by
  simp only [reDotGroup, matches'_mul, matches'_char, Language.mem_mul] at h
  obtain ⟨a, ha, b, hb, rfl⟩ := h
  have : a = ['.'] := ha
  subst this
  exact ⟨b, rfl, mem_reDigits13 b hb⟩

open RegularExpression in
theorem MatchString_groups (t : Str) (h : MatchString t = true) :
    ∃ a b c d, t = a ++ '.' :: (b ++ '.' :: (c ++ '.' :: d)) ∧
      digits13 a = true ∧ digits13 b = true ∧ digits13 c = true ∧
      digits13 d = true := by
  unfold MatchString at h
  rw [rmatch_iff_matches'] at h
  simp only [ipRegex, matches'_mul, Language.mem_mul] at h
  obtain ⟨a, ha, x1, ⟨y1, hy1, x2, ⟨y2, hy2, y3, hy3, rfl⟩, rfl⟩, rfl⟩ := h
  obtain ⟨b, rfl, hb⟩ := mem_reDotGroup y1 hy1
  obtain ⟨c, rfl, hc⟩ := mem_reDotGroup y2 hy2
  obtain ⟨d, rfl, hd⟩ := mem_reDotGroup y3 hy3
  exact ⟨a, b, c, d, by simp, mem_reDigits13 a ha, hb, hc, hd⟩


theorem splitWhere_no_sep (p : Char → Bool) (a : Str) (h : ∀ x ∈ a, p x = false) :
    splitWhere p a = [a] := by
  induction a with
  | nil => rfl
  | cons c cs ih =>
    have hc : p c = false := h c (List.mem_cons_self _ _)
    simp [splitWhere, hc, ih (fun x hx => h x (List.mem_cons_of_mem _ hx)), consHead]

theorem splitWhere_append_sep (p : Char → Bool) (a : Str) (sep : Char) (rest : Str)
    (h : ∀ x ∈ a, p x = false) (hs : p sep = true) :
    splitWhere p (a ++ sep :: rest) = a :: splitWhere p rest := by
  induction a with
  | nil => simp [splitWhere, hs]
  | cons c cs ih =>
    have hc : p c = false := h c (List.mem_cons_self _ _)
    simp [splitWhere, hc, ih (fun x hx => h x (List.mem_cons_of_mem _ hx)), consHead]

theorem digits13_no_dot (g : Str) (h : digits13 g = true) :
    ∀ x ∈ g, (x == '.') = false := by
  intro x hx
  simp only [digits13, Bool.and_eq_true, List.all_eq_true] at h
  have hd := h.2 x hx
  by_contra hne
  have : x = '.' := by simpa using hne
  subst this
  exact absurd hd (by decide)

theorem digit_value_le (c : Char) (h : c.isDigit = true) : c.toNat - 48 ≤ 9 := by
  simp only [Char.isDigit, Bool.and_eq_true, decide_eq_true_eq] at h
  have h2 : c.val.toNat ≤ 57 := h.2
  simp only [Char.toNat]
  omega

theorem digits13_value (g : Str) (h : digits13 g = true) : decimalValue g ≤ 999 := by
  simp only [digits13, Bool.and_eq_true, List.all_eq_true, decide_eq_true_eq] at h
  obtain ⟨⟨h1, h3⟩, hd⟩ := h
  match g, h1, h3, hd with
  | [a], _, _, hd =>
    have := digit_value_le a (hd a (by simp))
    simp only [decimalValue, List.foldl]
    omega
  | [a, b], _, _, hd =>
    have := digit_value_le a (hd a (by simp))
    have := digit_value_le b (hd b (by simp))
    simp only [decimalValue, List.foldl]
    omega
  | [a, b, c], _, _, hd =>
    have := digit_value_le a (hd a (by simp))
    have := digit_value_le b (hd b (by simp))
    have := digit_value_le c (hd c (by simp))
    simp only [decimalValue, List.foldl]
    omega
  | _ :: _ :: _ :: _ :: _, _, h3, _ => simp at h3

theorem MatchString_dottedQuad (t : Str) (h : MatchString t = true) :
    dottedQuad digits13 t = true ∧ ∀ g ∈ Split t '.', decimalValue g ≤ 999 := by
  obtain ⟨a, b, c, d, rfl, ha, hb, hc, hd⟩ := MatchString_groups t h
  have hs : Split (a ++ '.' :: (b ++ '.' :: (c ++ '.' :: d))) '.' = [a, b, c, d] := by
    unfold Split
    rw [splitWhere_append_sep _ a '.' _ (digits13_no_dot a ha) (by decide),
      splitWhere_append_sep _ b '.' _ (digits13_no_dot b hb) (by decide),
      splitWhere_append_sep _ c '.' _ (digits13_no_dot c hc) (by decide),
      splitWhere_no_sep _ d (digits13_no_dot d hd)]
  refine ⟨by simp [dottedQuad, hs, ha, hb, hc, hd], ?_⟩
  intro g hg
  rw [hs] at hg
  simp only [List.mem_cons, List.mem_singleton, List.not_mem_nil, or_false] at hg
  rcases hg with rfl | rfl | rfl | rfl
  · exact digits13_value _ ha
  · exact digits13_value _ hb
  · exact digits13_value _ hc
  · exact digits13_value _ hd

theorem mem_getBannedIPsForJail (r : CmdResult) (ips : List Str) (t : Str)
    (h : getBannedIPsForJail r = some ips) (ht : t ∈ ips) : MatchString t = true := by
  unfold getBannedIPsForJail at h
  by_cases he : r.err = true
  · simp [he] at h
  · simp only [he, Bool.false_eq_true, if_false, Option.some.injEq] at h
    subst h
    simp only [List.mem_flatMap] at ht
    obtain ⟨line, _, hl⟩ := ht
    unfold hostsOfLine at hl
    by_cases hem : (TrimSpace line).isEmpty = true
    · simp [hem] at hl
    · simp only [hem, Bool.false_eq_true, if_false, List.mem_filter] at hl
      exact hl.2

/-- C8, as stated, fails: the tokens `999.999.999.999` and `256.1.1.1` are
returned by `getBannedIPsForJail`, and neither is four octets in 0..255. -/
theorem accepts_out_of_range_octets :
    getBannedIPsForJail ⟨"999.999.999.999 256.1.1.1".toList, false⟩
      = some ["999.999.999.999".toList, "256.1.1.1".toList] ∧
    dottedQuad octet255 "999.999.999.999".toList = false ∧
    dottedQuad octet255 "256.1.1.1".toList = false := by
  decide

/-- C8, amended: every host token that `getBannedIPsForJail` returns consists
of four dot-separated groups of one to three ASCII digits, so each group has a
value in 0..999. -/
theorem hosts_are_dotted_digit_groups (r : CmdResult) (ips : List Str) (t : Str)
    (h : getBannedIPsForJail r = some ips) (ht : t ∈ ips) :
    dottedQuad digits13 t = true ∧ ∀ g ∈ Split t '.', decimalValue g ≤ 999 :=
  MatchString_dottedQuad t (mem_getBannedIPsForJail r ips t h ht)

theorem hosts_are_dotted_digit_groups_witness :
    dottedQuad digits13 "10.0.0.1".toList = true ∧
    ∀ g ∈ Split "10.0.0.1".toList '.', decimalValue g ≤ 999 :=
  hosts_are_dotted_digit_groups ⟨"10.0.0.1\n".toList, false⟩ ["10.0.0.1".toList]
    "10.0.0.1".toList (by decide) (by decide)

/-! ## Series persist -/

theorem applyTrace_cases (t : List Event) (g : Labels → Option Nat) (l : Labels) :
    applyTrace t g l = g l ∨ ∃ v, Event.setBanned l v ∈ t ∧ applyTrace t g l = some v := by
  induction t generalizing g with
  | nil => exact Or.inl rfl
  | cons e rest ih =>
    have hstep : applyTrace (e :: rest) g = applyTrace rest (applyEvent g e) := rfl
    rw [hstep]
    rcases ih (applyEvent g e) with h | ⟨v, hv, h⟩
    · rw [h]
      cases e with
      | httpGet ip => exact Or.inl rfl
      | setBanned l2 v =>
        by_cases hl : l = l2
        · subst hl
          exact Or.inr ⟨v, List.mem_cons_self _ _, by simp [applyEvent, mapSet]⟩
        · exact Or.inl (by simp [applyEvent, mapSet, hl])
    · exact Or.inr ⟨v, List.mem_cons_of_mem _ hv, h⟩

/-- C13: a run never removes a series: a series that exists before the run
exists after it, with its old value or the value the run set; and every value
the run sets on a ban-status series is 0 or 1. -/
theorem series_persist (w : World) (s : State)
    (hwf : keysWellFormed s.previousBanned) :
    ∃ o, collectFail2BanMetrics w s = some o ∧
      (∀ l, (s.ipBannedGauge l).isSome = true →
        (o.state.ipBannedGauge l).isSome = true) ∧
      (∀ l, o.state.ipBannedGauge l = s.ipBannedGauge l ∨
        o.state.ipBannedGauge l = some 0 ∨ o.state.ipBannedGauge l = some 1) ∧
      (∀ l v, Event.setBanned l v ∈ o.trace → v = 0 ∨ v = 1) := by
  cases hj : getJailList w.status with
  | none =>
    refine ⟨⟨s, []⟩, by simp [collectFail2BanMetrics, hj], fun l h => h,
      fun l => Or.inl rfl, ?_⟩
    intro l v hl
    simp at hl
  | some jails =>
    obtain ⟨o, ho, _, _, _, hw, hg⟩ :=
      collect_spec w s jails hj (fun k hk _ => hwf k hk)
    have hval : ∀ l v, Event.setBanned l v ∈ o.trace → v = 0 ∨ v = 1 := by
      intro l v hl
      rcases (hw v l.key).1 ⟨l, hl, rfl⟩ with ⟨h, _⟩ | ⟨h, _⟩
      · exact Or.inr h
      · exact Or.inl h
    have hcases : ∀ l, o.state.ipBannedGauge l = s.ipBannedGauge l ∨
        o.state.ipBannedGauge l = some 0 ∨ o.state.ipBannedGauge l = some 1 := by
      intro l
      rw [hg]
      rcases applyTrace_cases o.trace s.ipBannedGauge l with h | ⟨v, hv, h⟩
      · exact Or.inl h
      · rcases hval l v hv with rfl | rfl
        · exact Or.inr (Or.inl h)
        · exact Or.inr (Or.inr h)
    refine ⟨o, ho, ?_, hcases, hval⟩
    intro l hl
    rcases hcases l with h | h | h
    · rw [h]; exact hl
    · rw [h]; rfl
    · rw [h]; rfl

theorem series_persist_witness :
    ∃ o, collectFail2BanMetrics jailDownWorld scenarioState = some o ∧
      (∀ l, (scenarioState.ipBannedGauge l).isSome = true →
        (o.state.ipBannedGauge l).isSome = true) ∧
      (∀ l, o.state.ipBannedGauge l = scenarioState.ipBannedGauge l ∨
        o.state.ipBannedGauge l = some 0 ∨ o.state.ipBannedGauge l = some 1) ∧
      (∀ l v, Event.setBanned l v ∈ o.trace → v = 0 ∨ v = 1) :=
  series_persist jailDownWorld scenarioState (by unfold keysWellFormed; decide)

/-! ## Keys -/

theorem append_sep_unique_right (sep : Char) (a b a2 b2 : Str)
    (h : a ++ sep :: b = a2 ++ sep :: b2) (hb : sep ∉ b) (hb2 : sep ∉ b2) :
    a = a2 ∧ b = b2 := by
  rcases List.append_eq_append_iff.1 h with ⟨c, h1, h2⟩ | ⟨c, h1, h2⟩
  · cases c with
    | nil => simp at h1 h2; exact ⟨h1.symm, h2⟩
    | cons x c2 =>
      simp only [List.cons_append, List.cons.injEq] at h2
      exact absurd (h2.2 ▸ (by simp : sep ∈ c2 ++ sep :: b2)) hb
  · cases c with
    | nil => simp at h1 h2; exact ⟨h1, h2.symm⟩
    | cons x c2 =>
      simp only [List.cons_append, List.cons.injEq] at h2
      exact absurd (h2.2 ▸ (by simp : sep ∈ c2 ++ sep :: b)) hb2

theorem append_sep_unique_left (sep : Char) (a b a2 b2 : Str)
    (h : a ++ sep :: b = a2 ++ sep :: b2) (ha : sep ∉ a) (ha2 : sep ∉ a2) :
    a = a2 ∧ b = b2 := by
  rcases List.append_eq_append_iff.1 h with ⟨c, h1, h2⟩ | ⟨c, h1, h2⟩
  · cases c with
    | nil => simp at h1 h2; exact ⟨h1.symm, h2⟩
    | cons x c2 =>
      simp only [List.cons_append, List.cons.injEq] at h2
      exact absurd (h1 ▸ h2.1 ▸ (by simp : sep ∈ a ++ sep :: c2)) ha2
  · cases c with
    | nil => simp at h1 h2; exact ⟨h1, h2.symm⟩
    | cons x c2 =>
      simp only [List.cons_append, List.cons.injEq] at h2
      exact absurd (h1 ▸ h2.1 ▸ (by simp : sep ∈ a2 ++ sep :: c2)) ha

theorem digits13_no_colon (g : Str) (h : digits13 g = true) : ':' ∉ g := by
  intro hx
  simp only [digits13, Bool.and_eq_true, List.all_eq_true] at h
  exact absurd (h.2 ':' hx) (by decide)

theorem MatchString_no_colon (t : Str) (h : MatchString t = true) : ':' ∉ t := by
  obtain ⟨a, b, c, d, rfl, ha, hb, hc, hd⟩ := MatchString_groups t h
  have := digits13_no_colon a ha
  have := digits13_no_colon b hb
  have := digits13_no_colon c hc
  have := digits13_no_colon d hd
  simp only [List.mem_append, List.mem_cons, not_or]
  refine ⟨‹_›, by decide, ‹_›, by decide, ‹_›, by decide, ‹_›⟩

/-- C17: for arbitrary jail names and hosts accepted by `ipRegex`, equal
snapshot keys come from equal jails and equal hosts. -/
theorem banKey_injective (j1 j2 h1 h2 : Str) (m1 : MatchString h1 = true)
    (m2 : MatchString h2 = true) (h : banKey j1 h1 = banKey j2 h2) :
    j1 = j2 ∧ h1 = h2 :=
  append_sep_unique_right ':' j1 h1 j2 h2 h (MatchString_no_colon h1 m1)
    (MatchString_no_colon h2 m2)

theorem banKey_injective_witness :
    "a:b".toList = "a:b".toList ∧ "10.0.0.1".toList = "10.0.0.1".toList :=
  banKey_injective "a:b".toList "a:b".toList "10.0.0.1".toList "10.0.0.1".toList
    (by decide) (by decide) rfl

/-! ## Labels of the release loop -/

theorem releaseLoop_events (cur : List Str) (gc : Str → Option geoCacheEntry)
    (keys : List Str) (r r2 : (Labels → Option Nat) × List Event)
    (h : releaseLoop cur gc keys r = some r2) :
    ∃ evs, r2.2 = r.2 ++ evs ∧
      ∀ e ∈ evs, ∃ l : Labels, e = Event.setBanned l 0 ∧
        l.lat = (cachedCoords gc l.ip).1 ∧ l.lon = (cachedCoords gc l.ip).2 := by
  induction keys generalizing r with
  | nil =>
    simp only [releaseLoop, Option.some.injEq] at h
    exact ⟨[], by simp [h], by simp⟩
  | cons key rest ih =>
    by_cases hc : key ∈ cur
    · simp only [releaseLoop, hc, if_true] at h
      exact ih r h
    · rcases span_ne_eq key ':' with ⟨a, b, h1, _, _⟩ | ⟨h1, _⟩
      · have hs : SplitN2 key ':' = [a, b] := by unfold SplitN2; rw [h1]
        simp only [releaseLoop, hc, if_false, hs] at h
        obtain ⟨evs, he, hall⟩ := ih _ h
        refine ⟨Event.setBanned
          ⟨b, a, (cachedCoords gc b).1, (cachedCoords gc b).2⟩ 0 :: evs, ?_, ?_⟩
        · rw [he]
          simp
        · intro e hmem
          rcases List.mem_cons.1 hmem with rfl | hmem
          · exact ⟨_, rfl, rfl, rfl⟩
          · exact hall e hmem
      · have hs : SplitN2 key ':' = [key] := by unfold SplitN2; rw [h1]
        simp [releaseLoop, hc, hs] at h

/-- What a run that obtains the jail list calls `Set(0)` with, and that it
makes no lookup after the jail loop. -/
theorem collect_release (w : World) (s : State) (jails : List Str) (o : Outcome)
    (hj : getJailList w.status = some jails)
    (ho : collectFail2BanMetrics w s = some o) :
    o.state.geoCache = (jailLoop s.previousBanned jails w.banip w.geo
        ⟨[], 0, s.geoCache, s.ipBannedGauge, []⟩).geoCache ∧
    (∀ ip, Event.httpGet ip ∈ o.trace ↔
      Event.httpGet ip ∈ (jailLoop s.previousBanned jails w.banip w.geo
        ⟨[], 0, s.geoCache, s.ipBannedGauge, []⟩).trace) ∧
    (∀ ip, o.trace.count (Event.httpGet ip) =
      (jailLoop s.previousBanned jails w.banip w.geo
        ⟨[], 0, s.geoCache, s.ipBannedGauge, []⟩).trace.count (Event.httpGet ip)) ∧
    (∀ l, Event.setBanned l 0 ∈ o.trace →
      l.lat = (cachedCoords o.state.geoCache l.ip).1 ∧
      l.lon = (cachedCoords o.state.geoCache l.ip).2) := by
  unfold collectFail2BanMetrics at ho
  simp only [hj] at ho
  have hwr := jailLoop_wrote s.previousBanned jails w.banip w.geo
    ⟨[], 0, s.geoCache, s.ipBannedGauge, []⟩
  generalize jailLoop s.previousBanned jails w.banip w.geo
    ⟨[], 0, s.geoCache, s.ipBannedGauge, []⟩ = c at ho hwr ⊢
  cases hr : releaseLoop c.currentBanned c.geoCache s.previousBanned
      (c.ipBannedGauge, c.trace) with
  | none => simp [hr] at ho
  | some r2 =>
    simp only [hr, Option.some.injEq] at ho
    subst ho
    obtain ⟨evs, he, hall⟩ := releaseLoop_events _ _ _ _ _ hr
    simp only at he
    have hno : ∀ ip, Event.httpGet ip ∉ evs := by
      intro ip hmem
      obtain ⟨l, hl, _⟩ := hall _ hmem
      cases hl
    refine ⟨rfl, ?_, ?_, ?_⟩
    · intro ip
      simp only [he, List.mem_append]
      constructor
      · rintro (h | h)
        · exact h
        · exact absurd h (hno ip)
      · exact Or.inl
    · intro ip
      simp only [he, List.count_append]
      rw [List.count_eq_zero_of_not_mem (hno ip)]
      rfl
    · intro l hl
      simp only [he, List.mem_append] at hl
      rcases hl with hl | hl
      · have := (hwr 0 l.key).1 ⟨l, hl, rfl⟩
        rcases this with h | ⟨h, _⟩
        · exact absurd h (wrote_nil _ _)
        · exact absurd h (by decide)
      · obtain ⟨l2, hl2, h1, h2⟩ := hall _ hl
        cases hl2
        exact ⟨h1, h2⟩

/-- C11, as stated, fails: the cache entry of 10.0.0.1 expires at clock
reading 100; in a run at clock reading 200 `getGeoData` would treat it as
absent, and the release of 10.0.0.1 sets to 0 the series with the coordinates
of that entry. -/
theorem release_uses_expired_entry :
    freshEntry expiredEntryState.geoCache "10.0.0.1".toList 200 = none ∧
    (collectFail2BanMetrics expiredEntryWorld expiredEntryState).map
        (fun o => o.trace)
      = some [Event.httpGet "10.0.0.2".toList,
          Event.setBanned ⟨"10.0.0.2".toList, "sshd".toList, [], []⟩ 1,
          Event.setBanned
            ⟨"10.0.0.1".toList, "sshd".toList, "1.0000".toList, "2.0000".toList⟩
            0] := by
  decide

/-- C11, amended: `getGeoData` treats an expired entry as absent and makes the
external call; the release path does not look at `Expiry`: the lat/lon labels
of every series set to 0 are those of the cache entry of the host, expired or
not, and empty when the cache has no entry for the host. -/
theorem release_reads_cache_entry (w : World) (s : State) (jails : List Str)
    (hj : getJailList w.status = some jails)
    (hwf : keysWellFormed s.previousBanned) :
    ∃ o, collectFail2BanMetrics w s = some o ∧
      (∀ l, Event.setBanned l 0 ∈ o.trace →
        (∀ entry, o.state.geoCache l.ip = some entry →
          l.lat = entry.Lat ∧ l.lon = entry.Lon) ∧
        (o.state.geoCache l.ip = none → l.lat = [] ∧ l.lon = [])) ∧
      (∀ gc ip entry (g : GeoCall), gc ip = some entry →
        entry.Expiry ≤ g.now → (getGeoData gc ip g).called = true) := by
  obtain ⟨o, ho, _⟩ := collect_spec w s jails hj (fun k hk _ => hwf k hk)
  obtain ⟨_, _, _, hl⟩ := collect_release w s jails o hj ho
  refine ⟨o, ho, ?_, ?_⟩
  · intro l hmem
    obtain ⟨h1, h2⟩ := hl l hmem
    constructor
    · intro entry he
      simp only [cachedCoords, he] at h1 h2
      exact ⟨h1, h2⟩
    · intro he
      simp only [cachedCoords, he] at h1 h2
      exact ⟨h1, h2⟩
  · intro gc ip entry g he hexp
    have hm : noFreshEntry gc ip g.now := by
      intro e2 he2
      rw [he] at he2
      cases he2
      omega
    rw [getGeoData_miss gc ip g hm]
    cases g.resp <;> rfl

theorem release_reads_cache_entry_witness :
    ∃ o, collectFail2BanMetrics expiredEntryWorld expiredEntryState = some o ∧
      (∀ l, Event.setBanned l 0 ∈ o.trace →
        (∀ entry, o.state.geoCache l.ip = some entry →
          l.lat = entry.Lat ∧ l.lon = entry.Lon) ∧
        (o.state.geoCache l.ip = none → l.lat = [] ∧ l.lon = [])) ∧
      (∀ gc ip entry (g : GeoCall), gc ip = some entry →
        entry.Expiry ≤ g.now → (getGeoData gc ip g).called = true) :=
  release_reads_cache_entry expiredEntryWorld expiredEntryState ["sshd".toList]
    (by decide) (by unfold keysWellFormed; decide)

/-! ## Jail names -/

theorem splitWhere_ne_nil (p : Char → Bool) (s : Str) : splitWhere p s ≠ [] := by
  cases s with
  | nil => simp [splitWhere]
  | cons c cs =>
    simp only [splitWhere]
    by_cases hp : p c = true
    · simp [hp]
    · simp only [hp]
      cases splitWhere p cs <;> simp [consHead]

theorem mem_splitWhere (p : Char → Bool) (s piece : Str)
    (h : piece ∈ splitWhere p s) : ∀ x ∈ piece, p x = false ∧ x ∈ s := by
  induction s generalizing piece with
  | nil =>
    simp only [splitWhere, List.mem_singleton] at h
    subst h
    simp
  | cons c cs ih =>
    simp only [splitWhere] at h
    by_cases hp : p c = true
    · simp only [hp, if_true, List.mem_cons] at h
      rcases h with rfl | h
      · simp
      · exact fun x hx => ⟨(ih piece h x hx).1, List.mem_cons_of_mem _ (ih piece h x hx).2⟩
    · simp only [hp] at h
      cases hsp : splitWhere p cs with
      | nil => exact absurd hsp (splitWhere_ne_nil p cs)
      | cons q qs =>
        simp only [hsp, consHead, List.mem_cons, Bool.false_eq_true, if_false] at h
        rcases h with rfl | h
        · intro x hx
          rcases List.mem_cons.1 hx with rfl | hx
          · exact ⟨by simpa using hp, List.mem_cons_self _ _⟩
          · have := ih q (by simp [hsp]) x hx
            exact ⟨this.1, List.mem_cons_of_mem _ this.2⟩
        · intro x hx
          have := ih piece (by simp [hsp, h]) x hx
          exact ⟨this.1, List.mem_cons_of_mem _ this.2⟩

theorem mem_TrimSpace (s : Str) (x : Char) (h : x ∈ TrimSpace s) : x ∈ s := by
  unfold TrimSpace at h
  rw [List.mem_reverse] at h
  have h1 := (List.dropWhile_sublist isSpace).subset h
  rw [List.mem_reverse] at h1
  exact (List.dropWhile_sublist isSpace).subset h1

theorem head?_dropWhile_isSpace (s : Str) (c : Char)
    (h : (s.dropWhile isSpace).head? = some c) : isSpace c = false := by
  induction s with
  | nil => simp at h
  | cons a as ih =>
    by_cases ha : isSpace a = true
    · simp only [List.dropWhile_cons, ha, if_true] at h
      exact ih h
    · simp only [List.dropWhile_cons, ha] at h
      simp only [Bool.false_eq_true, if_false, List.head?_cons, Option.some.injEq] at h
      subst h
      simpa using ha

theorem getLast?_dropWhile (p : Char → Bool) (s : Str) (h : s.dropWhile p ≠ []) :
    (s.dropWhile p).getLast? = s.getLast? := by
  obtain ⟨t, ht⟩ := List.dropWhile_suffix p (l := s)
  have : s.getLast? = (t ++ s.dropWhile p).getLast? := by rw [ht]
  rw [this, List.getLast?_append_of_ne_nil _ h]

theorem TrimSpace_ends (s : Str) :
    (∀ c, (TrimSpace s).head? = some c → isSpace c = false) ∧
    (∀ c, (TrimSpace s).getLast? = some c → isSpace c = false) := by
  unfold TrimSpace
  constructor
  · intro c hc
    rw [List.head?_reverse] at hc
    have hne : (s.dropWhile isSpace).reverse.dropWhile isSpace ≠ [] := by
      intro h0
      rw [h0] at hc
      simp at hc
    rw [getLast?_dropWhile _ _ hne, List.getLast?_reverse] at hc
    exact head?_dropWhile_isSpace s c hc
  · intro c hc
    rw [List.getLast?_reverse] at hc
    exact head?_dropWhile_isSpace _ c hc

theorem mem_jailsOfLine (line j : Str) (h : j ∈ jailsOfLine line) :
    j ≠ [] ∧ (∀ c, j.head? = some c → isSpace c = false) ∧
    (∀ c, j.getLast? = some c → isSpace c = false) ∧ ',' ∉ j ∧ ':' ∉ j := by
  unfold jailsOfLine at h
  cases hs : Split line ':' with
  | nil => simp [hs] at h
  | cons p0 ps =>
    cases ps with
    | nil => simp [hs] at h
    | cons p1 ps2 =>
      simp only [hs, List.mem_filter, List.mem_map] at h
      obtain ⟨⟨q, hq, rfl⟩, hne⟩ := h
      have hp1 : ∀ x ∈ p1, (x == ':') = false := fun x hx =>
        (mem_splitWhere _ line p1 (by unfold Split at hs; rw [hs]; simp) x hx).1
      have hq2 := mem_splitWhere _ (TrimSpace p1) q hq
      refine ⟨?_, (TrimSpace_ends q).1, (TrimSpace_ends q).2, ?_, ?_⟩
      · intro h0
        rw [h0] at hne
        simp at hne
      · intro hx
        have := (hq2 ',' (mem_TrimSpace q ',' hx)).1
        simp at this
      · intro hx
        have h1 := (hq2 ':' (mem_TrimSpace q ':' hx)).2
        have := hp1 ':' (mem_TrimSpace p1 ':' h1)
        simp at this

theorem mem_jailScan (lines : List Str) (j : Str) (h : j ∈ jailScan lines) :
    ∃ line ∈ lines, j ∈ jailsOfLine line := by
  induction lines with
  | nil => simp [jailScan] at h
  | cons line rest ih =>
    simp only [jailScan] at h
    by_cases hc : Contains line "Jail list:".toList = true
    · simp only [hc, if_true] at h
      exact ⟨line, List.mem_cons_self _ _, h⟩
    · simp only [hc] at h
      obtain ⟨l2, hl2, hj⟩ := ih h
      exact ⟨l2, List.mem_cons_of_mem _ hl2, hj⟩

theorem mem_getJailList (r : CmdResult) (jails : List Str) (j : Str)
    (h : getJailList r = some jails) (hj : j ∈ jails) :
    j ≠ [] ∧ (∀ c, j.head? = some c → isSpace c = false) ∧
    (∀ c, j.getLast? = some c → isSpace c = false) ∧ ',' ∉ j ∧ ':' ∉ j := by
  unfold getJailList at h
  by_cases he : r.err = true
  · simp [he] at h
  · simp only [he, Bool.false_eq_true, if_false, Option.some.injEq] at h
    subst h
    obtain ⟨line, _, hl⟩ := mem_jailScan _ j hj
    exact mem_jailsOfLine line j hl

theorem SplitN2_banKey (j h : Str) (hj : ':' ∉ j) : SplitN2 (banKey j h) ':' = [j, h] := by
  obtain ⟨a, b, hs, hk, ha⟩ := SplitN2_of_mem (banKey j h) (mem_banKey_colon j h)
  obtain ⟨rfl, rfl⟩ := append_sep_unique_left ':' a b j h hk ha hj
  exact hs

/-- C16: every jail name that `getJailList` returns is non-empty, neither
starts nor ends with white space, and contains neither `,` nor `:`; so for
every host text `h` the key `j:h`, cut at its first colon as the release loop
does, gives back exactly the two parts `j` and `h`. -/
theorem jail_names_round_trip (r : CmdResult) (jails : List Str) (j : Str)
    (h : getJailList r = some jails) (hj : j ∈ jails) :
    j ≠ [] ∧ (∀ c, j.head? = some c → isSpace c = false) ∧
    (∀ c, j.getLast? = some c → isSpace c = false) ∧ ',' ∉ j ∧ ':' ∉ j ∧
    ∀ host : Str, SplitN2 (banKey j host) ':' = [j, host] := by
  obtain ⟨h1, h2, h3, h4, h5⟩ := mem_getJailList r jails j h hj
  exact ⟨h1, h2, h3, h4, h5, fun host => SplitN2_banKey j host h5⟩

theorem jail_names_round_trip_witness :
    "nginx".toList ≠ [] ∧
    (∀ c, "nginx".toList.head? = some c → isSpace c = false) ∧
    (∀ c, "nginx".toList.getLast? = some c → isSpace c = false) ∧
    ',' ∉ "nginx".toList ∧ ':' ∉ "nginx".toList ∧
    ∀ host : Str, SplitN2 (banKey "nginx".toList host) ':' = ["nginx".toList, host] :=
  jail_names_round_trip
    ⟨"Status\n|- Number of jail:\t2\n`- Jail list:\tsshd, nginx\n".toList, false⟩
    ["sshd".toList, "nginx".toList] "nginx".toList (by decide) (by decide)

/-! ## Output without a jail line -/

theorem Contains_nil (s : Str) : Contains s [] = true := by
  cases s <;> simp [Contains]

theorem Contains_append_right (s t sub : Str) (h : Contains s sub = true) :
    Contains (s ++ t) sub = true := by
  induction s with
  | nil =>
    simp only [Contains, List.isEmpty_eq_true] at h
    subst h
    exact Contains_nil _
  | cons c cs ih =>
    simp only [Contains, Bool.or_eq_true] at h
    simp only [List.cons_append, Contains, Bool.or_eq_true]
    rcases h with h | h
    · left
      rw [List.isPrefixOf_iff_prefix] at h ⊢
      exact h.trans (List.prefix_append (c :: cs) t)
    · exact Or.inr (ih h)

theorem Contains_of_dropCR (p sub : Str) (h : Contains (dropCR p) sub = true) :
    Contains p sub = true := by
  unfold dropCR at h
  by_cases hl : p.getLast? = some '\r'
  · simp only [hl, if_true] at h
    have hp : p.dropLast ++ ['\r'] = p :=
      List.dropLast_append_getLast? '\r' (by simp [hl])
    rw [← hp]
    exact Contains_append_right _ _ _ h
  · simpa [hl] using h

theorem mem_scanLines (out line : Str) (h : line ∈ scanLines out) :
    ∃ p ∈ splitWhere (fun c => c == '\n') out, line = dropCR p := by
  unfold scanLines at h
  simp only [List.mem_map] at h
  obtain ⟨p, hp, rfl⟩ := h
  refine ⟨p, ?_, rfl⟩
  have hp2 := (List.takeWhile_sublist _).subset hp
  by_cases hl : (splitWhere (fun c => c == '\n') out).getLast? = some []
  · simp only [hl, if_true] at hp2
    exact (List.dropLast_sublist _).subset hp2
  · simpa [hl] using hp2

theorem jailScan_none (lines : List Str)
    (h : ∀ line ∈ lines, Contains line "Jail list:".toList = false) :
    jailScan lines = [] := by
  induction lines with
  | nil => rfl
  | cons line rest ih =>
    simp only [jailScan, h line (List.mem_cons_self _ _)]
    exact ih (fun l hl => h l (List.mem_cons_of_mem _ hl))

theorem getJailList_no_jail_line (r : CmdResult) (herr : r.err = false)
    (h : ∀ line ∈ splitWhere (fun c => c == '\n') r.out,
      Contains line "Jail list:".toList = false) :
    getJailList r = some [] := by
  unfold getJailList
  simp only [herr, Bool.false_eq_true, if_false, Option.some.injEq]
  apply jailScan_none
  intro line hl
  obtain ⟨p, hp, rfl⟩ := mem_scanLines r.out line hl
  cases hc : Contains (dropCR p) "Jail list:".toList with
  | false => rfl
  | true =>
    have := Contains_of_dropCR p _ hc
    rw [h p hp] at this
    exact absurd this (by decide)

/-- C19: when the status command succeeds and no line of its output contains
`Jail list:`, `getJailList` returns the empty list without error, and the run
treats it as zero jails: every key of the previous snapshot gets its series set
to 0, the stored snapshot is empty and the total-banned gauge is 0. -/
theorem no_jail_line_releases_all (w : World) (s : State)
    (herr : w.status.err = false)
    (hno : ∀ line ∈ splitWhere (fun c => c == '\n') w.status.out,
      Contains line "Jail list:".toList = false)
    (hwf : keysWellFormed s.previousBanned) :
    getJailList w.status = some [] ∧
    ∃ o, collectFail2BanMetrics w s = some o ∧
      (∀ k ∈ s.previousBanned, ∃ l : Labels, l.key = k ∧
        Event.setBanned l 0 ∈ o.trace ∧ o.state.ipBannedGauge l = some 0) ∧
      (∀ l v, Event.setBanned l v ∈ o.trace → v = 0 ∧ l.key ∈ s.previousBanned) ∧
      o.state.previousBanned = [] ∧
      o.state.totalBannedIPsGauge = 0 := by
  have hj := getJailList_no_jail_line w.status herr hno
  obtain ⟨o, ho, hp, hc, ht, hw, hg⟩ :=
    collect_spec w s [] hj (fun k hk _ => hwf k hk)
  have hcur : currentBannedOf w s [] = [] := by rw [hc]; rfl
  have hzero : ∀ l v, Event.setBanned l v ∈ o.trace → v = 0 ∧ l.key ∈ s.previousBanned := by
    intro l v hl
    rcases (hw v l.key).1 ⟨l, hl, rfl⟩ with ⟨_, h, _⟩ | ⟨h1, h2, _⟩
    · simp [retrievedKeys] at h
    · exact ⟨h1, h2⟩
  refine ⟨hj, o, ho, ?_, hzero, by rw [hp, hcur], by rw [ht]; rfl⟩
  intro k hk
  obtain ⟨l, hl, hkey⟩ := (hw 0 k).2 (Or.inr ⟨rfl, hk, by rw [hcur]; simp⟩)
  refine ⟨l, hkey, hl, ?_⟩
  rw [hg]
  exact applyTrace_written o.trace s.ipBannedGauge l 0 hl
    (fun u hu => (hzero l u hu).1)

theorem no_jail_line_releases_all_witness :
    getJailList noJailLineWorld.status = some [] ∧
    ∃ o, collectFail2BanMetrics noJailLineWorld scenarioState = some o ∧
      (∀ k ∈ scenarioState.previousBanned, ∃ l : Labels, l.key = k ∧
        Event.setBanned l 0 ∈ o.trace ∧ o.state.ipBannedGauge l = some 0) ∧
      (∀ l v, Event.setBanned l v ∈ o.trace →
        v = 0 ∧ l.key ∈ scenarioState.previousBanned) ∧
      o.state.previousBanned = [] ∧
      o.state.totalBannedIPsGauge = 0 :=
  no_jail_line_releases_all noJailLineWorld scenarioState (by decide) (by decide)
    (by unfold keysWellFormed; decide)

/-! ## Invariants of the reachable states -/

theorem retrievedKeys_clean (r : CmdResult) (jails : List Str)
    (banip : Nat → CmdResult) (hj : getJailList r = some jails) (k : Str)
    (hk : k ∈ retrievedKeys jails banip) :
    ∃ j h, k = banKey j h ∧ ':' ∉ j ∧ ':' ∉ h := by
  obtain ⟨i, jail, ips, ip, h1, h2, h3, rfl⟩ := (mem_retrievedKeys jails banip k).1 hk
  have hmem : jail ∈ jails := List.getElem?_mem h1
  exact ⟨jail, ip, rfl, (mem_getJailList r jails jail hj hmem).2.2.2.2,
    MatchString_no_colon ip (mem_getBannedIPsForJail _ ips ip h2 h3)⟩

theorem collect_cleanKeys (w : World) (s : State) (o : Outcome)
    (ho : collectFail2BanMetrics w s = some o)
    (hs : ∀ k ∈ s.previousBanned, ∃ j h, k = banKey j h ∧ ':' ∉ j ∧ ':' ∉ h) :
    ∀ k ∈ o.state.previousBanned, ∃ j h, k = banKey j h ∧ ':' ∉ j ∧ ':' ∉ h := by
  cases hj : getJailList w.status with
  | none =>
    simp only [collectFail2BanMetrics, hj, Option.some.injEq] at ho
    rw [← ho]
    exact hs
  | some jails =>
    have hwf : keysWellFormed s.previousBanned := by
      intro k hk
      obtain ⟨j, h, rfl, _⟩ := hs k hk
      exact mem_banKey_colon j h
    obtain ⟨o2, ho2, hp, _⟩ := collect_spec w s jails hj (fun k hk _ => hwf k hk)
    rw [ho, Option.some.injEq] at ho2
    subst ho2
    intro k hk
    rw [hp, mem_currentBannedOf] at hk
    exact retrievedKeys_clean w.status jails w.banip hj k hk

theorem collect_published (w : World) (s : State) (o : Outcome)
    (ho : collectFail2BanMetrics w s = some o)
    (hwf : keysWellFormed s.previousBanned)
    (hs : ∀ k ∈ s.previousBanned, ∃ l : Labels, l.key = k ∧ s.ipBannedGauge l = some 1) :
    ∀ k ∈ o.state.previousBanned,
      ∃ l : Labels, l.key = k ∧ o.state.ipBannedGauge l = some 1 := by
  cases hj : getJailList w.status with
  | none =>
    simp only [collectFail2BanMetrics, hj, Option.some.injEq] at ho
    rw [← ho]
    exact hs
  | some jails =>
    obtain ⟨o2, ho2, hp, _, _, hw, hg⟩ :=
      collect_spec w s jails hj (fun k hk _ => hwf k hk)
    rw [ho, Option.some.injEq] at ho2
    subst ho2
    intro k hk
    rw [hp] at hk
    by_cases hprev : k ∈ s.previousBanned
    · obtain ⟨l, hl, hone⟩ := hs k hprev
      refine ⟨l, hl, ?_⟩
      rw [hg, applyTrace_untouched o.trace s.ipBannedGauge l, hone]
      intro v hv
      rcases (hw v k).1 ⟨l, hv, hl⟩ with ⟨_, _, h⟩ | ⟨_, _, h⟩
      · exact h hprev
      · exact h hk
    · obtain ⟨l, hl, hkey⟩ := (hw 1 k).2
        (Or.inl ⟨rfl, (mem_currentBannedOf w s jails k).1 hk, hprev⟩)
      refine ⟨l, hkey, ?_⟩
      rw [hg]
      apply applyTrace_written o.trace s.ipBannedGauge l 1 hl
      intro u hu
      rcases (hw u k).1 ⟨l, hu, hkey⟩ with ⟨h, _⟩ | ⟨_, h, _⟩
      · exact h
      · exact absurd h hprev

theorem reachable_cleanKeys (s : State) (h : Reachable s) :
    ∀ k ∈ s.previousBanned, ∃ j h, k = banKey j h ∧ ':' ∉ j ∧ ':' ∉ h := by
  induction h with
  | init => intro k hk; simp [initialState] at hk
  | run w s o _ ho ih => exact collect_cleanKeys w s o ho ih
  | reorder s m _ hp ih => exact fun k hk => ih k (hp.mem_iff.1 hk)

theorem reachable_published (s : State) (h : Reachable s) :
    ∀ k ∈ s.previousBanned,
      ∃ l : Labels, l.key = k ∧ s.ipBannedGauge l = some 1 := by
  induction h with
  | init => intro k hk; simp [initialState] at hk
  | run w s o hs ho ih =>
    exact collect_published w s o ho (reachable_keysWellFormed s hs) ih
  | reorder s m _ hp ih => exact fun k hk => ih k (hp.mem_iff.1 hk)

theorem banKey_unique (j h j2 h2 : Str) (hj : ':' ∉ j) (hh : ':' ∉ h)
    (he : banKey j2 h2 = banKey j h) : j2 = j ∧ h2 = h := by
  have hc : (banKey j2 h2).count ':' = (banKey j h).count ':' := by rw [he]
  simp only [banKey, List.count_append, List.count_cons_self,
    List.count_eq_zero_of_not_mem hj, List.count_eq_zero_of_not_mem hh] at hc
  have hj2 : ':' ∉ j2 := by
    apply List.count_eq_zero.1
    omega
  exact append_sep_unique_left ':' j2 h2 j h he hj2 hj

/-- C18: in every state the program can reach, every key `jail:ip` of the
stored snapshot has a series with labels (ip, jail, lat, lon), for some lat
and lon, whose value is 1. -/
theorem banned_keys_published (s : State) (h : Reachable s) (jail ip : Str)
    (hk : banKey jail ip ∈ s.previousBanned) :
    ∃ lat lon, s.ipBannedGauge ⟨ip, jail, lat, lon⟩ = some 1 := by
  obtain ⟨j, h2, he, hj, hh⟩ := reachable_cleanKeys s h _ hk
  obtain ⟨l, hl, hone⟩ := reachable_published s h _ hk
  obtain ⟨rfl, rfl⟩ := banKey_unique j h2 jail ip hj hh he
  obtain ⟨h3, h4⟩ := banKey_unique jail ip l.jail l.ip hj hh hl
  refine ⟨l.lat, l.lon, ?_⟩
  rw [← h3, ← h4]
  exact hone

theorem afterScenario_reachable : Reachable afterScenario := by
  unfold afterScenario
  cases h : runCycles [scenarioWorld] initialState with
  | none => exact Reachable.init
  | some s2 => exact reachable_runCycles _ _ _ Reachable.init h

theorem banned_keys_published_witness :
    ∃ lat lon, afterScenario.ipBannedGauge
      ⟨"10.0.0.2".toList, "jailA".toList, lat, lon⟩ = some 1 :=
  banned_keys_published afterScenario afterScenario_reachable "jailA".toList
    "10.0.0.2".toList (by decide)

/-! ## Lookups of the jail loop -/

theorem noFreshEntry_congr (gc gc2 : Str → Option geoCacheEntry) (ip : Str)
    (now : Nat) (h : gc2 ip = gc ip) (hn : noFreshEntry gc ip now) :
    noFreshEntry gc2 ip now := by
  intro e he
  rw [h] at he
  exact hn e he

theorem getGeoData_cache_other (gc : Str → Option geoCacheEntry) (ip ip2 : Str)
    (g : GeoCall) (hne : ip ≠ ip2) : (getGeoData gc ip2 g).geoCache ip = gc ip := by
  unfold getGeoData
  cases freshEntry gc ip2 g.now with
  | some e => rfl
  | none =>
    cases g.resp with
    | ok lat lon => simp [mapSet, hne]
    | transportError => rfl
    | undecodable => rfl

theorem ipStep_geoCache (prev : List Str) (jail ip : Str) (g : GeoCall) (c : Cycle) :
    (ipStep prev jail ip g c).geoCache = (getGeoData c.geoCache ip g).geoCache := by
  unfold ipStep
  by_cases h : banKey jail ip ∈ prev <;> simp [h]

theorem ipStep_lookups (prev : List Str) (jail ip : Str) (g : GeoCall) (c : Cycle)
    (x : Str) :
    (ipStep prev jail ip g c).trace.count (Event.httpGet x) =
      c.trace.count (Event.httpGet x) +
        (if (getGeoData c.geoCache ip g).called = true ∧ ip = x then 1 else 0) := by
  unfold ipStep
  by_cases hx : ip = x
  · subst hx
    by_cases h : banKey jail ip ∈ prev <;>
      by_cases hc : (getGeoData c.geoCache ip g).called = true <;>
      simp [h, hc, List.count_cons, List.count_singleton]
  · by_cases h : banKey jail ip ∈ prev <;>
      by_cases hc : (getGeoData c.geoCache ip g).called = true <;>
      simp [h, hc, hx, List.count_cons, List.count_singleton]

theorem ipLoop_cache_other (prev : List Str) (jail : Str) (ips : List Str)
    (geo : Nat → GeoCall) (c : Cycle) (ip : Str) (h : ip ∉ ips) :
    (ipLoop prev jail ips geo c).geoCache ip = c.geoCache ip ∧
    (ipLoop prev jail ips geo c).trace.count (Event.httpGet ip)
      = c.trace.count (Event.httpGet ip) := by
  induction ips generalizing geo c with
  | nil => exact ⟨rfl, rfl⟩
  | cons x rest ih =>
    simp only [List.mem_cons, not_or] at h
    simp only [ipLoop]
    obtain ⟨h1, h2⟩ := ih (fun k => geo (k + 1)) (ipStep prev jail x (geo 0) c) h.2
    rw [h1, h2, ipStep_geoCache, getGeoData_cache_other _ _ _ _ h.1, ipStep_lookups]
    simp [Ne.symm h.1]

theorem ipLoop_lookups_le (prev : List Str) (jail : Str) (ips : List Str)
    (geo : Nat → GeoCall) (c : Cycle) (x : Str) :
    c.trace.count (Event.httpGet x)
      ≤ (ipLoop prev jail ips geo c).trace.count (Event.httpGet x) := by
  induction ips generalizing geo c with
  | nil => exact le_refl _
  | cons y rest ih =>
    simp only [ipLoop]
    refine le_trans ?_ (ih _ _)
    rw [ipStep_lookups]
    exact Nat.le_add_right _ _

theorem jailStep_lookups_le (prev : List Str) (jail : Str) (r : CmdResult)
    (geo : Nat → GeoCall) (c : Cycle) (x : Str) :
    c.trace.count (Event.httpGet x)
      ≤ (jailStep prev jail r geo c).trace.count (Event.httpGet x) := by
  unfold jailStep
  cases getBannedIPsForJail r with
  | none => exact le_refl _
  | some ips => exact ipLoop_lookups_le prev jail ips geo c x

theorem jailLoop_lookups_le (prev : List Str) (jails : List Str)
    (banip : Nat → CmdResult) (geo : Nat → Nat → GeoCall) (c : Cycle) (x : Str) :
    c.trace.count (Event.httpGet x)
      ≤ (jailLoop prev jails banip geo c).trace.count (Event.httpGet x) := by
  induction jails generalizing banip geo c with
  | nil => exact le_refl _
  | cons j rest ih =>
    simp only [jailLoop]
    exact le_trans (jailStep_lookups_le prev j (banip 0) (geo 0) c x) (ih _ _ _)

theorem getGeoData_cold (gc : Str → Option geoCacheEntry) (ip : Str) (g : GeoCall)
    (h : noFreshEntry gc ip g.now) :
    (getGeoData gc ip g).called = true ∧
    (g.resp.failed = true → (getGeoData gc ip g).geoCache = gc) := by
  rw [getGeoData_miss gc ip g h]
  cases g.resp <;> simp [GeoResponse.failed]

theorem ipLoop_lookup (prev : List Str) (jail : Str) (ips : List Str)
    (geo : Nat → GeoCall) (c : Cycle) (ip : Str) (h : ip ∈ ips)
    (hcold : ∀ k, noFreshEntry c.geoCache ip (geo k).now) :
    c.trace.count (Event.httpGet ip)
      < (ipLoop prev jail ips geo c).trace.count (Event.httpGet ip) := by
  induction ips generalizing geo c with
  | nil => simp at h
  | cons x rest ih =>
    simp only [ipLoop]
    by_cases hx : x = ip
    · subst hx
      refine lt_of_lt_of_le ?_ (ipLoop_lookups_le _ _ _ _ _ _)
      rw [ipStep_lookups]
      simp [(getGeoData_cold c.geoCache x (geo 0) (hcold 0)).1]
    · have hrest : ip ∈ rest := by
        rcases List.mem_cons.1 h with h | h
        · exact absurd h.symm hx
        · exact h
      refine lt_of_le_of_lt ?_ (ih (fun k => geo (k + 1)) _ hrest ?_)
      · rw [ipStep_lookups]
        exact Nat.le_add_right _ _
      · intro k
        apply noFreshEntry_congr c.geoCache _ ip _ _ (hcold (k + 1))
        rw [ipStep_geoCache]
        exact getGeoData_cache_other _ _ _ _ (Ne.symm hx)

theorem ipLoop_failing (prev : List Str) (jail : Str) (ips : List Str)
    (geo : Nat → GeoCall) (c : Cycle) (ip : Str)
    (hcold : ∀ k, noFreshEntry c.geoCache ip (geo k).now)
    (hfail : ∀ k, ips[k]? = some ip → (geo k).resp.failed = true) :
    (ipLoop prev jail ips geo c).geoCache ip = c.geoCache ip ∧
    (ipLoop prev jail ips geo c).trace.count (Event.httpGet ip)
      = c.trace.count (Event.httpGet ip) + ips.count ip := by
  induction ips generalizing geo c with
  | nil => exact ⟨rfl, rfl⟩
  | cons x rest ih =>
    simp only [ipLoop]
    have hstep : (ipStep prev jail x (geo 0) c).geoCache ip = c.geoCache ip := by
      rw [ipStep_geoCache]
      by_cases hx : x = ip
      · subst hx
        rw [(getGeoData_cold c.geoCache x (geo 0) (hcold 0)).2 (hfail 0 (by simp))]
      · exact getGeoData_cache_other _ _ _ _ (Ne.symm hx)
    obtain ⟨h1, h2⟩ := ih (fun k => geo (k + 1)) (ipStep prev jail x (geo 0) c)
      (fun k => noFreshEntry_congr c.geoCache _ ip _ hstep (hcold (k + 1)))
      (fun k hk => hfail (k + 1) (by simpa using hk))
    rw [h1, h2, hstep, ipStep_lookups]
    refine ⟨rfl, ?_⟩
    by_cases hx : x = ip
    · subst hx
      simp [(getGeoData_cold c.geoCache x (geo 0) (hcold 0)).1]
      omega
    · simp [hx, List.count_cons_of_ne (Ne.symm hx)]

theorem jailStep_some (prev : List Str) (jail : Str) (r : CmdResult)
    (geo : Nat → GeoCall) (c : Cycle) (ips : List Str)
    (h : getBannedIPsForJail r = some ips) :
    (jailStep prev jail r geo c).geoCache = (ipLoop prev jail ips geo c).geoCache ∧
    (jailStep prev jail r geo c).trace = (ipLoop prev jail ips geo c).trace := by
  unfold jailStep
  simp [h]

theorem jailStep_none (prev : List Str) (jail : Str) (r : CmdResult)
    (geo : Nat → GeoCall) (c : Cycle) (h : getBannedIPsForJail r = none) :
    jailStep prev jail r geo c = c := by
  unfold jailStep
  simp [h]

theorem mem_retrievedHosts (jails : List Str) (banip : Nat → CmdResult) (ip : Str)
    (i : Nat) (jail : Str) (ips : List Str) (h1 : jails[i]? = some jail)
    (h2 : getBannedIPsForJail (banip i) = some ips) (h3 : ip ∈ ips) :
    ip ∈ retrievedHosts jails banip := by
  induction jails generalizing banip i with
  | nil => simp at h1
  | cons j rest ih =>
    simp only [retrievedHosts, List.mem_append]
    cases i with
    | zero => exact Or.inl (by simp [h2, h3])
    | succ i =>
      exact Or.inr (ih (fun k => banip (k + 1)) i (by simpa using h1) h2)

theorem jailLoop_lookup (prev : List Str) (jails : List Str)
    (banip : Nat → CmdResult) (geo : Nat → Nat → GeoCall) (c : Cycle) (ip : Str)
    (h : ip ∈ retrievedHosts jails banip)
    (hcold : ∀ i k, noFreshEntry c.geoCache ip (geo i k).now) :
    c.trace.count (Event.httpGet ip)
      < (jailLoop prev jails banip geo c).trace.count (Event.httpGet ip) := by
  induction jails generalizing banip geo c with
  | nil => simp [retrievedHosts] at h
  | cons j rest ih =>
    simp only [retrievedHosts, List.mem_append] at h
    simp only [jailLoop]
    cases hb : getBannedIPsForJail (banip 0) with
    | none =>
      rw [jailStep_none prev j (banip 0) (geo 0) c hb]
      exact ih _ _ c (by simpa [hb] using h) (fun i k => hcold (i + 1) k)
    | some ips =>
      obtain ⟨hg, ht⟩ := jailStep_some prev j (banip 0) (geo 0) c ips hb
      by_cases hin : ip ∈ ips
      · refine lt_of_lt_of_le ?_ (jailLoop_lookups_le _ _ _ _ _ _)
        rw [ht]
        exact ipLoop_lookup prev j ips (geo 0) c ip hin (hcold 0)
      · obtain ⟨h1, h2⟩ := ipLoop_cache_other prev j ips (geo 0) c ip hin
        have hrest : ip ∈ retrievedHosts rest (fun i => banip (i + 1)) := by
          rcases h with h | h
          · simp only [hb] at h
            exact absurd h hin
          · exact h
        have := ih (fun i => banip (i + 1)) (fun i => geo (i + 1))
          (jailStep prev j (banip 0) (geo 0) c) hrest
          (fun i k => noFreshEntry_congr c.geoCache _ ip _ (by rw [hg, h1])
            (hcold (i + 1) k))
        rw [ht, h2] at this
        exact this

theorem jailLoop_failing (prev : List Str) (jails : List Str)
    (banip : Nat → CmdResult) (geo : Nat → Nat → GeoCall) (c : Cycle) (ip : Str)
    (hcold : ∀ i k, noFreshEntry c.geoCache ip (geo i k).now)
    (hfail : ∀ i ips k, getBannedIPsForJail (banip i) = some ips →
      ips[k]? = some ip → (geo i k).resp.failed = true) :
    (jailLoop prev jails banip geo c).geoCache ip = c.geoCache ip ∧
    (jailLoop prev jails banip geo c).trace.count (Event.httpGet ip)
      = c.trace.count (Event.httpGet ip) + (retrievedHosts jails banip).count ip := by
  induction jails generalizing banip geo c with
  | nil => exact ⟨rfl, rfl⟩
  | cons j rest ih =>
    simp only [jailLoop, retrievedHosts, List.count_append]
    cases hb : getBannedIPsForJail (banip 0) with
    | none =>
      rw [jailStep_none prev j (banip 0) (geo 0) c hb]
      obtain ⟨h1, h2⟩ := ih (fun i => banip (i + 1)) (fun i => geo (i + 1)) c
        (fun i k => hcold (i + 1) k) (fun i ips k => hfail (i + 1) ips k)
      exact ⟨h1, by rw [h2]; simp⟩
    | some ips =>
      obtain ⟨hg, ht⟩ := jailStep_some prev j (banip 0) (geo 0) c ips hb
      obtain ⟨h1, h2⟩ := ipLoop_failing prev j ips (geo 0) c ip (hcold 0)
        (fun k hk => hfail 0 ips k hb hk)
      obtain ⟨h3, h4⟩ := ih (fun i => banip (i + 1)) (fun i => geo (i + 1))
        (jailStep prev j (banip 0) (geo 0) c)
        (fun i k => noFreshEntry_congr c.geoCache _ ip _ (by rw [hg, h1])
          (hcold (i + 1) k))
        (fun i ips k => hfail (i + 1) ips k)
      rw [h3, h4, hg, h1, ht, h2]
      exact ⟨rfl, by simp only []; omega⟩

/-- C15: a host that a successfully queried jail lists, and for which the
cache has no entry that is fresh at any clock reading of the cycle, is looked
up externally in that cycle, whatever the previous snapshot holds. When the
lookups for the host fail, its cache entry is left as it was, so the same
holds in the next cycle, and the cycle makes as many external calls for the
host as the host is listed: one when it is listed once. -/
theorem cold_host_is_looked_up (w : World) (s : State) (jails : List Str)
    (i : Nat) (jail : Str) (ips : List Str) (ip : Str)
    (hj : getJailList w.status = some jails)
    (hwf : keysWellFormed s.previousBanned)
    (h1 : jails[i]? = some jail)
    (h2 : getBannedIPsForJail (w.banip i) = some ips) (h3 : ip ∈ ips)
    (hcold : ∀ n k, noFreshEntry s.geoCache ip (w.geo n k).now) :
    ∃ o, collectFail2BanMetrics w s = some o ∧
      Event.httpGet ip ∈ o.trace ∧
      ((∀ n l k, getBannedIPsForJail (w.banip n) = some l → l[k]? = some ip →
          (w.geo n k).resp.failed = true) →
        o.state.geoCache ip = s.geoCache ip ∧
        o.trace.count (Event.httpGet ip) = (retrievedHosts jails w.banip).count ip) := by
  obtain ⟨o, ho, _⟩ := collect_spec w s jails hj (fun k hk _ => hwf k hk)
  obtain ⟨hgc, _, hcount, _⟩ := collect_release w s jails o hj ho
  have hmem := mem_retrievedHosts jails w.banip ip i jail ips h1 h2 h3
  refine ⟨o, ho, ?_, ?_⟩
  · apply List.count_pos_iff.1
    rw [hcount ip]
    exact lt_of_le_of_lt (Nat.zero_le _)
      (jailLoop_lookup s.previousBanned jails w.banip w.geo _ ip hmem hcold)
  · intro hfail
    obtain ⟨h4, h5⟩ := jailLoop_failing s.previousBanned jails w.banip w.geo
      ⟨[], 0, s.geoCache, s.ipBannedGauge, []⟩ ip hcold hfail
    rw [hgc, hcount ip, h4, h5]
    exact ⟨rfl, by simp⟩

theorem afterStale1_wellFormed : keysWellFormed afterStale1.previousBanned := by
  unfold keysWellFormed
  decide

theorem cold_host_is_looked_up_witness :
    ∃ o, collectFail2BanMetrics staleWorldAgain afterStale1 = some o ∧
      Event.httpGet "10.0.0.1".toList ∈ o.trace ∧
      ((∀ n l k, getBannedIPsForJail (staleWorldAgain.banip n) = some l →
          l[k]? = some "10.0.0.1".toList →
          (staleWorldAgain.geo n k).resp.failed = true) →
        o.state.geoCache "10.0.0.1".toList = afterStale1.geoCache "10.0.0.1".toList ∧
        o.trace.count (Event.httpGet "10.0.0.1".toList)
          = (retrievedHosts ["sshd".toList] staleWorldAgain.banip).count
              "10.0.0.1".toList) :=
  cold_host_is_looked_up staleWorldAgain afterStale1 ["sshd".toList] 0 "sshd".toList
    ["10.0.0.1".toList] "10.0.0.1".toList (by decide) afterStale1_wellFormed
    (by decide) (by decide) (by decide)
    (fun _ _ e he => by
      rw [show afterStale1.geoCache "10.0.0.1".toList = none by decide] at he
      cases he)

/-! ## Lines that do not fit the scanner -/

theorem digits13_chars (g : Str) (h : digits13 g = true) :
    g ≠ [] ∧ ∀ x ∈ g, x.isDigit = true := by
  simp only [digits13, Bool.and_eq_true, List.all_eq_true, decide_eq_true_eq] at h
  refine ⟨?_, h.2⟩
  intro h0
  rw [h0] at h
  simp at h

theorem MatchString_chars (t : Str) (h : MatchString t = true) :
    t ≠ [] ∧ ∀ x ∈ t, x.isDigit = true ∨ x = '.' := by
  obtain ⟨a, b, c, d, rfl, ha, hb, hc, hd⟩ := MatchString_groups t h
  refine ⟨?_, ?_⟩
  · have := (digits13_chars a ha).1
    simp [this]
  · intro x hx
    simp only [List.mem_append, List.mem_cons] at hx
    rcases hx with hx | rfl | hx | rfl | hx | rfl | hx
    · exact Or.inl ((digits13_chars a ha).2 x hx)
    · exact Or.inr rfl
    · exact Or.inl ((digits13_chars b hb).2 x hx)
    · exact Or.inr rfl
    · exact Or.inl ((digits13_chars c hc).2 x hx)
    · exact Or.inr rfl
    · exact Or.inl ((digits13_chars d hd).2 x hx)

theorem isSpace_of_host_char (x : Char) (h : x.isDigit = true ∨ x = '.') :
    isSpace x = false ∧ (x == '\n') = false := by
  rcases h with h | rfl
  · simp only [Char.isDigit, Bool.and_eq_true, decide_eq_true_eq] at h
    have h1 : 48 ≤ x.val.toNat := h.1
    have h2 : x.val.toNat ≤ 57 := h.2
    have hn : x.toNat = x.val.toNat := rfl
    constructor
    · simp only [isSpace, hn]
      simp
      omega
    · have : x ≠ '\n' := by
        rintro rfl
        exact absurd h1 (by decide)
      simpa using this
  · exact ⟨by decide, by decide⟩

theorem byteLen_append (a b : Str) : byteLen (a ++ b) = byteLen a + byteLen b := by
  simp [byteLen]

theorem oneLine_cons (h : Str) (hosts : List Str) :
    oneLine (h :: hosts) = h ++ ' ' :: oneLine hosts := by
  simp [oneLine]

theorem oneLine_no_newline (hosts : List Str)
    (hm : ∀ h ∈ hosts, MatchString h = true) :
    ∀ x ∈ oneLine hosts, (x == '\n') = false := by
  induction hosts with
  | nil => intro x hx; simp [oneLine] at hx
  | cons h rest ih =>
    intro x hx
    rw [oneLine_cons] at hx
    simp only [List.mem_append, List.mem_cons] at hx
    rcases hx with hx | rfl | hx
    · exact (isSpace_of_host_char x
        ((MatchString_chars h (hm h (List.mem_cons_self _ _))).2 x hx)).2
    · decide
    · exact ih (fun h2 hh => hm h2 (List.mem_cons_of_mem _ hh)) x hx

theorem Fields_space_cons (c : Char) (s : Str) (hc : isSpace c = true) :
    Fields (c :: s) = Fields s := by
  simp [Fields, splitWhere, hc]

theorem Fields_oneLine (hosts : List Str)
    (hm : ∀ h ∈ hosts, MatchString h = true) : Fields (oneLine hosts) = hosts := by
  induction hosts with
  | nil => simp [oneLine, Fields, splitWhere]
  | cons h rest ih =>
    have hh := MatchString_chars h (hm h (List.mem_cons_self _ _))
    rw [oneLine_cons]
    unfold Fields
    rw [splitWhere_append_sep isSpace h ' ' _
      (fun x hx => (isSpace_of_host_char x (hh.2 x hx)).1) (by decide)]
    have hne : h.isEmpty = false := by
      cases h with
      | nil => exact absurd rfl hh.1
      | cons _ _ => rfl
    simp only [List.filter_cons, hne, Bool.not_false, if_true]
    have := ih (fun h2 hh2 => hm h2 (List.mem_cons_of_mem _ hh2))
    unfold Fields at this
    rw [this]

theorem scanLines_long_line (line : Str) (hnl : ∀ x ∈ line, (x == '\n') = false)
    (hlong : maxLine < byteLen line) : scanLines line = [] := by
  have hne : line ≠ [] := by
    rintro rfl
    simp [byteLen] at hlong
  unfold scanLines
  rw [splitWhere_no_sep _ line hnl]
  have : ([line].getLast? = some []) = False := by
    simp [hne]
  simp only [this, if_false]
  simp [List.takeWhile, Nat.not_le.2 hlong]

/-- A ban list printed on one line that is longer than the scanner's buffer is
lost whole: the scan stops before the first token, no host is returned and no
error either. -/
theorem long_line_returns_nothing (hosts : List Str)
    (hm : ∀ h ∈ hosts, MatchString h = true)
    (hlong : maxLine < byteLen (oneLine hosts)) :
    getBannedIPsForJail ⟨oneLine hosts, false⟩ = some [] ∧
    (Fields (oneLine hosts)).filter MatchString = hosts := by
  constructor
  · simp [getBannedIPsForJail,
      scanLines_long_line _ (oneLine_no_newline hosts hm) hlong]
  · rw [Fields_oneLine hosts hm]
    exact List.filter_eq_self.2 hm

theorem byteLen_oneLine_replicate (n : Nat) (h : Str) :
    byteLen (oneLine (List.replicate n h)) = n * (byteLen h + 1) := by
  induction n with
  | zero => simp [oneLine, byteLen]
  | succ n ih =>
    rw [List.replicate_succ, oneLine_cons, byteLen_append]
    have : byteLen (' ' :: oneLine (List.replicate n h))
        = 1 + byteLen (oneLine (List.replicate n h)) := by
      simp [byteLen]
      rfl
    rw [this, ih]
    ring

/-- C12, on the code: the ban-list command succeeds and prints 8000 hosts on
one line of 72000 bytes. All 8000 tokens match the host pattern, and
`getBannedIPsForJail` returns the empty list, without error. -/
theorem long_line_loses_hosts :
    getBannedIPsForJail ⟨longBanOutput, false⟩ = some [] ∧
    (Fields longBanOutput).filter MatchString
      = List.replicate 8000 "10.0.0.1".toList ∧
    byteLen longBanOutput = 72000 := by
  have hm : ∀ h ∈ List.replicate 8000 "10.0.0.1".toList, MatchString h = true := by
    intro h hh
    rw [(List.mem_replicate.1 hh).2]
    decide
  have hlen : byteLen longBanOutput = 72000 := by
    unfold longBanOutput
    rw [byteLen_oneLine_replicate]
    decide
  obtain ⟨h1, h2⟩ := long_line_returns_nothing _ hm
    (by
      have := hlen
      unfold longBanOutput at this
      rw [this]
      decide)
  exact ⟨h1, h2, hlen⟩

/-! ## Lines that fit the scanner -/

theorem splitWhere_append_space (p : Char → Bool) (a : Str) (c : Char) (b : Str)
    (hc : p c = true) :
    splitWhere p (a ++ c :: b) = splitWhere p a ++ splitWhere p b := by
  induction a with
  | nil => simp [splitWhere, hc]
  | cons x a2 ih =>
    simp only [List.cons_append, splitWhere, List.append_eq]
    rw [ih]
    by_cases hx : p x = true
    · simp [hx]
    · cases hs : splitWhere p a2 with
      | nil => exact absurd hs (splitWhere_ne_nil p a2)
      | cons q qs => simp [hx, consHead]

theorem Fields_nil : Fields [] = [] := by
  simp [Fields, splitWhere]

theorem Fields_append_space (a : Str) (c : Char) (b : Str) (hc : isSpace c = true) :
    Fields (a ++ c :: b) = Fields a ++ Fields b := by
  unfold Fields
  rw [splitWhere_append_space isSpace a c b hc, List.filter_append]

theorem Fields_all_space (sp : Str) (h : ∀ x ∈ sp, isSpace x = true) : Fields sp = [] := by
  induction sp with
  | nil => exact Fields_nil
  | cons c rest ih =>
    rw [Fields_space_cons c rest (h c (List.mem_cons_self _ _))]
    exact ih (fun x hx => h x (List.mem_cons_of_mem _ hx))

theorem Fields_append_spaces (t sp : Str) (h : ∀ x ∈ sp, isSpace x = true) :
    Fields (t ++ sp) = Fields t := by
  cases sp with
  | nil => simp
  | cons c rest =>
    rw [Fields_append_space t c rest (h c (List.mem_cons_self _ _)),
      Fields_all_space rest (fun x hx => h x (List.mem_cons_of_mem _ hx))]
    simp

theorem Fields_dropWhile (s : Str) : Fields (s.dropWhile isSpace) = Fields s := by
  induction s with
  | nil => rfl
  | cons c rest ih =>
    by_cases hc : isSpace c = true
    · rw [List.dropWhile_cons_of_pos hc, ih, Fields_space_cons c rest hc]
    · rw [List.dropWhile_cons_of_neg hc]

theorem Fields_trimRight (s : Str) :
    Fields ((s.reverse.dropWhile isSpace).reverse) = Fields s := by
  have h1 : s.reverse.takeWhile isSpace ++ s.reverse.dropWhile isSpace = s.reverse :=
    List.takeWhile_append_dropWhile isSpace s.reverse
  have h2 : s = (s.reverse.dropWhile isSpace).reverse
      ++ (s.reverse.takeWhile isSpace).reverse := by
    rw [← List.reverse_append, h1, List.reverse_reverse]
  have h3 : ∀ x ∈ (s.reverse.takeWhile isSpace).reverse, isSpace x = true := by
    intro x hx
    rw [List.mem_reverse] at hx
    exact List.mem_takeWhile_imp hx
  have := Fields_append_spaces (s.reverse.dropWhile isSpace).reverse
    (s.reverse.takeWhile isSpace).reverse h3
  rw [← h2] at this
  exact this.symm

theorem Fields_TrimSpace (s : Str) : Fields (TrimSpace s) = Fields s := by
  unfold TrimSpace
  rw [Fields_trimRight, Fields_dropWhile]

theorem Fields_dropCR (s : Str) : Fields (dropCR s) = Fields s := by
  unfold dropCR
  by_cases hl : s.getLast? = some '\r'
  · simp only [hl, if_true]
    have hp : s.dropLast ++ ['\r'] = s :=
      List.dropLast_append_getLast? '\r' (by simp [hl])
    have := Fields_append_spaces s.dropLast ['\r'] (by
      intro x hx
      rw [List.mem_singleton.1 hx]
      decide)
    rw [hp] at this
    exact this.symm
  · simp [hl]

theorem hostsOfLine_eq (line : Str) :
    hostsOfLine line = (Fields line).filter MatchString := by
  unfold hostsOfLine
  by_cases he : (TrimSpace line).isEmpty = true
  · have h0 : TrimSpace line = [] := List.isEmpty_iff.1 he
    have : Fields line = [] := by rw [← Fields_TrimSpace, h0, Fields_nil]
    simp [he, this]
  · simp only [he, Bool.false_eq_true, if_false, Fields_TrimSpace]

theorem joinLines_splitWhere (s : Str) :
    joinLines (splitWhere (fun c => c == '\n') s) = s := by
  induction s with
  | nil => rfl
  | cons c cs ih =>
    simp only [splitWhere]
    cases hs : splitWhere (fun c => c == '\n') cs with
    | nil => exact absurd hs (splitWhere_ne_nil _ cs)
    | cons q qs =>
      rw [hs] at ih
      by_cases hc : (c == '\n') = true
      · have : c = '\n' := by simpa using hc
        subst this
        simp [joinLines, ih]
      · simp only [hc, consHead]
        cases qs with
        | nil =>
          simp only [joinLines] at ih ⊢
          rw [ih]
        | cons q2 qs2 =>
          simp only [joinLines] at ih ⊢
          rw [← ih]
          simp

theorem Fields_joinLines (ps : List Str) :
    Fields (joinLines ps) = ps.flatMap Fields := by
  induction ps with
  | nil => simp [joinLines, Fields_nil]
  | cons a rest ih =>
    cases rest with
    | nil => simp [joinLines]
    | cons b rest2 =>
      simp only [joinLines] at ih ⊢
      rw [Fields_append_space a '\n' _ (by decide), ih]
      simp

theorem flatMap_Fields_lines (ps : List Str) :
    (if ps.getLast? = some [] then ps.dropLast else ps).flatMap Fields
      = ps.flatMap Fields := by
  by_cases hl : ps.getLast? = some []
  · simp only [hl, if_true]
    have hp : ps.dropLast ++ [[]] = ps :=
      List.dropLast_append_getLast? [] (by simp [hl])
    conv_rhs => rw [← hp]
    simp [Fields_nil]
  · simp [hl]

theorem flatMap_filter_Fields (ls : List Str) :
    (ls.map dropCR).flatMap hostsOfLine = (ls.flatMap Fields).filter MatchString := by
  induction ls with
  | nil => rfl
  | cons l rest ih =>
    simp only [List.map_cons, List.flatMap_cons, List.filter_append, ih,
      hostsOfLine_eq, Fields_dropCR]

/-- When the ban-list command succeeds and every line of its output fits the
scanner's buffer, `getBannedIPsForJail` returns, in order, exactly the
white-space separated tokens of the output that match the host pattern. -/
theorem short_lines_exact (out : Str)
    (hfit : ∀ line ∈ splitWhere (fun c => c == '\n') out, byteLen line ≤ maxLine) :
    getBannedIPsForJail ⟨out, false⟩ = some ((Fields out).filter MatchString) := by
  unfold getBannedIPsForJail scanLines
  simp only [Bool.false_eq_true, if_false, Option.some.injEq]
  have htake : ∀ ls : List Str,
      (∀ l ∈ ls, byteLen l ≤ maxLine) →
      ls.takeWhile (fun l => decide (byteLen l ≤ maxLine)) = ls := by
    intro ls h
    apply List.takeWhile_eq_self_iff.2
    intro l hl
    simpa using h l hl
  have hsub : ∀ l ∈ (if (splitWhere (fun c => c == '\n') out).getLast? = some []
      then (splitWhere (fun c => c == '\n') out).dropLast
      else splitWhere (fun c => c == '\n') out), byteLen l ≤ maxLine := by
    intro l hl
    apply hfit
    by_cases hlast : (splitWhere (fun c => c == '\n') out).getLast? = some []
    · simp only [hlast, if_true] at hl
      exact (List.dropLast_sublist _).subset hl
    · simpa [hlast] using hl
  rw [htake _ hsub, flatMap_filter_Fields, flatMap_Fields_lines,
    ← Fields_joinLines, joinLines_splitWhere]

end Fail2banExporter
